import Mathlib

/-!
Verification of the KeyBoardGen genetic keyboard-layout optimizer.

This file is a shallow embedding, in Lean 4, of the parts of the Go source
that the verified properties speak about:

* `pkg/genetic` character sets (`CharacterSet`, `IsValid`),
* the fitness evaluator and its thirteen components (`FitnessEvaluator.Evaluate`),
* the variation operators (`orderCrossover`, `swapMutation`, `ValidateChild`),
* the engine bookkeeping of `ParallelGA.Run` (best-ever tracking, convergence
  counter) and the elite-selection step of `ParallelEvolver.Evolve`,
* the corpus-sufficiency check `KeyloggerData.Validate`.

Modelling conventions:

* Go runes are modelled as natural numbers (code points); the null rune is `0`.
* Go `float64` values are modelled as rationals `ℚ`.  Every claim proved here
  is decided by comparisons and by divisions whose denominators the source
  guards to be nonzero, so the rational model agrees with the float semantics
  on the decided facts.  `math.Sqrt` (irrational in general) is abstracted as
  an explicit function parameter `sqrtQ` of the evaluator model.
* Go maps are modelled as association lists; map-membership tests become list
  membership (decidable propositions below), and map iteration becomes a fold
  over the list (all folds below compute order-independent sums or sets).
* `math/rand` draws are modelled by an explicit stream of naturals threaded
  through the functions that consume randomness; `rand.Intn n` takes the head
  of the stream modulo `n`.
-/

namespace KeyBoardGen

/-! ## CharacterSet (pkg/genetic charset source)

`CharacterSet` stores the ordered character list; membership in the
`CharToPos` map is membership in `chars`, and `Size` is the stored length
(Go sets `Size = len(chars)` in `NewCharacterSet`).
-/

structure CharacterSet where
  chars : List ℕ
  deriving DecidableEq, Repr

/-- `Size` field of the Go struct: the number of stored characters. -/
def CharacterSet.Size (cs : CharacterSet) : ℕ := cs.chars.length

/-- `CharacterSet.Contains`: key membership in the `CharToPos` map, which holds
exactly the characters occurring in `chars`. -/
def CharacterSet.Contains (cs : CharacterSet) (c : ℕ) : Prop := c ∈ cs.chars

instance (cs : CharacterSet) (c : ℕ) : Decidable (cs.Contains c) := by
  unfold CharacterSet.Contains; infer_instance

/-- Inner loop of `CharacterSet.IsValid`: walk the layout with the `seen` set
(modelled as the list of already-kept characters); at the end compare the
number of seen characters with `Size`. -/
def isValidAux (cs : CharacterSet) : List ℕ → List ℕ → Bool
  | [], seen => seen.length == cs.Size
  | c :: rest, seen =>
    if c = 0 then false
    else if ¬ cs.Contains c then false
    else if c ∈ seen then false
    else isValidAux cs rest (c :: seen)

/-- `CharacterSet.IsValid` from the source: length check, then the
null/membership/duplicate scan, then the final `len(seen) == cs.Size` check. -/
def CharacterSet.IsValid (cs : CharacterSet) (layout : List ℕ) : Bool :=
  if layout.length ≠ cs.Size then false
  else isValidAux cs layout []

/-- The four Layout invariants of the specification, for a layout against a
character set: correct length, no null code point, membership, distinctness. -/
def LayoutInvariants (cs : CharacterSet) (layout : List ℕ) : Prop :=
  layout.length = cs.Size ∧ (∀ c ∈ layout, c ≠ 0) ∧
    (∀ c ∈ layout, c ∈ cs.chars) ∧ layout.Nodup

instance (cs : CharacterSet) (layout : List ℕ) : Decidable (LayoutInvariants cs layout) := by
  unfold LayoutInvariants; infer_instance

lemma isValidAux_true_iff (cs : CharacterSet) :
    ∀ (l seen : List ℕ), isValidAux cs l seen = true ↔
      ((∀ c ∈ l, c ≠ 0) ∧ (∀ c ∈ l, c ∈ cs.chars) ∧ l.Nodup ∧
        (∀ c ∈ l, c ∉ seen) ∧ seen.length + l.length = cs.Size) := by
  intro l
  induction l with
  | nil =>
    intro seen
    simp [isValidAux]
  | cons c rest ih =>
    intro seen
    simp only [isValidAux]
    by_cases hc0 : c = 0
    · simp [hc0]
    · simp only [hc0, if_false]
      by_cases hmem : cs.Contains c
      · simp only [hmem, not_true, if_false]
        by_cases hseen : c ∈ seen
        · simp only [hseen, if_true]
          constructor
          · intro h; exact absurd h (by simp)
          · rintro ⟨-, -, -, hnots, -⟩
            exact absurd hseen (hnots c (by simp))
        · simp only [hseen, if_false]
          rw [ih (c :: seen)]
          have hcs : c ∈ cs.chars := hmem
          constructor
          · rintro ⟨h0, hmemall, hnd, hnots, hlen⟩
            refine ⟨?_, ?_, ?_, ?_, ?_⟩
            · intro x hx
              rcases List.mem_cons.mp hx with h | h
              · simpa [h] using hc0
              · exact h0 x h
            · intro x hx
              rcases List.mem_cons.mp hx with h | h
              · simpa [h] using hcs
              · exact hmemall x h
            · refine List.nodup_cons.mpr ⟨?_, hnd⟩
              intro hcrest
              exact (hnots c hcrest) (by simp)
            · intro x hx
              rcases List.mem_cons.mp hx with h | h
              · simpa [h] using hseen
              · intro hxs
                exact (hnots x h) (List.mem_cons_of_mem _ hxs)
            · simpa [List.length_cons, Nat.add_comm, Nat.add_assoc,
                Nat.add_left_comm] using hlen
          · rintro ⟨h0, hmemall, hnd, hnots, hlen⟩
            have hnd' := List.nodup_cons.mp hnd
            refine ⟨?_, ?_, hnd'.2, ?_, ?_⟩
            · intro x hx; exact h0 x (List.mem_cons_of_mem _ hx)
            · intro x hx; exact hmemall x (List.mem_cons_of_mem _ hx)
            · intro x hx hxcs
              rcases List.mem_cons.mp hxcs with h | h
              · exact hnd'.1 (h ▸ hx)
              · exact (hnots x (List.mem_cons_of_mem _ hx)) h
            · simpa [List.length_cons, Nat.add_comm, Nat.add_assoc,
                Nat.add_left_comm] using hlen
      · simp only [hmem, not_false_iff, if_true]
        constructor
        · intro h; exact absurd h (by simp)
        · rintro ⟨-, hmemall, -, -, -⟩
          exact absurd (hmemall c (by simp)) hmem

/-- `IsValid` returns `true` exactly when the four Layout invariants hold. -/
lemma isValid_iff_invariants (cs : CharacterSet) (layout : List ℕ) :
    cs.IsValid layout = true ↔ LayoutInvariants cs layout := by
  unfold CharacterSet.IsValid LayoutInvariants
  by_cases hlen : layout.length = cs.Size
  · simp only [hlen, ne_eq, not_true, if_false, isValidAux_true_iff]
    constructor
    · rintro ⟨h0, hmem, hnd, -, -⟩
      exact ⟨by simp [hlen], h0, hmem, hnd⟩
    · rintro ⟨-, h0, hmem, hnd⟩
      exact ⟨h0, hmem, hnd, by simp, by simp [hlen]⟩
  · simp [hlen]

/-! ## KeyloggerData (pkg/genetic types source)

`KeyloggerData` maps are modelled as association lists; bigram keys are the
rune sequences of the Go string keys (the claims only involve single-byte
characters, for which byte indexing and rune decoding coincide).
-/

structure KeyloggerData where
  charFrequency : List (ℕ × ℕ)
  bigramFreq : List (List ℕ × ℕ)
  totalChars : ℕ
  deriving DecidableEq, Repr

/-- `KeyloggerData.GetCharFreq`: map lookup with default 0. -/
def KeyloggerData.GetCharFreq (kd : KeyloggerData) (c : ℕ) : ℕ :=
  (kd.charFrequency.lookup c).getD 0

/-! ## Keyboard geometry (fitness evaluator source)

`KeyPositions` and `FingerMap` are `map[int]...` lookups, modelled as
association lists with `Option`-valued lookup.
-/

structure KeyboardGeometry where
  keyPositions : List (ℕ × (ℚ × ℚ))
  fingerMap : List (ℕ × ℕ)

/-- Lookup in the `KeyPositions` map. -/
def KeyboardGeometry.keyPos (g : KeyboardGeometry) (p : ℕ) : Option (ℚ × ℚ) :=
  g.keyPositions.lookup p

/-- Lookup in the `FingerMap` map. -/
def KeyboardGeometry.finger (g : KeyboardGeometry) (p : ℕ) : Option ℕ :=
  g.fingerMap.lookup p

/-- `StandardGeometry` from the source: 26 key positions with coordinates and
finger assignments (left fingers 0–3, right fingers 4–7). -/
def StandardGeometry : KeyboardGeometry where
  keyPositions :=
    [(0, (0, 0)), (1, (1, 0)), (2, (2, 0)), (3, (3, 0)), (4, (4, 0)),
     (5, (5, 0)), (6, (6, 0)), (7, (7, 0)), (8, (8, 0)), (9, (9, 0)),
     (10, (1/2, 1)), (11, (3/2, 1)), (12, (5/2, 1)), (13, (7/2, 1)), (14, (9/2, 1)),
     (15, (11/2, 1)), (16, (13/2, 1)), (17, (15/2, 1)), (18, (17/2, 1)),
     (19, (1, 2)), (20, (2, 2)), (21, (3, 2)), (22, (4, 2)), (23, (5, 2)),
     (24, (6, 2)), (25, (7, 2))]
  fingerMap :=
    [(0, 0), (1, 1), (2, 2), (3, 3), (4, 3), (5, 4), (6, 4), (7, 5), (8, 6), (9, 7),
     (10, 0), (11, 1), (12, 2), (13, 3), (14, 4), (15, 4), (16, 5), (17, 6), (18, 7),
     (19, 0), (20, 1), (21, 2), (22, 3), (23, 4), (24, 5), (25, 6)]

/-! ## Fitness evaluator (part_006 source)

`FitnessWeights`, the thirteen component functions, and `Evaluate`.  The
`charToPos` map built by `Evaluate` (`for pos, char := range layout`) is a Go
map in which a later position overwrites an earlier one for duplicate
characters; the model looks the layout up from the right accordingly.
`math.Sqrt` is the explicit `sqrtQ` field.
-/

structure FitnessWeights where
  FingerDistance : ℚ
  HandAlternation : ℚ
  FingerBalance : ℚ
  RowJumping : ℚ
  BigramEfficiency : ℚ
  SameFingerBigrams : ℚ
  LateralStretches : ℚ
  RollQuality : ℚ
  LayerPenalty : ℚ
  HomeRowBonus : ℚ
  RollRatioTarget : ℚ
  ThresholdBonuses : ℚ
  PositionMatching : ℚ

/-- `DefaultWeights` from the source. -/
def DefaultWeights : FitnessWeights where
  FingerDistance := 1/10
  HandAlternation := 1/10
  FingerBalance := 1/10
  RowJumping := 3/50
  BigramEfficiency := 3/50
  SameFingerBigrams := 1/5
  LateralStretches := 1/25
  RollQuality := 1/25
  LayerPenalty := 1/10
  HomeRowBonus := 2/25
  RollRatioTarget := 1/25
  ThresholdBonuses := 1/25
  PositionMatching := 1/25

structure FitnessEvaluator where
  geometry : KeyboardGeometry
  weights : FitnessWeights
  sqrtQ : ℚ → ℚ

/-- The `charToPos` map built at the top of `Evaluate`: character to position,
with later positions overwriting earlier ones. -/
def charToPosLookup (layout : List ℕ) (c : ℕ) : Option ℕ :=
  ((layout.enum.map (fun p => (p.2, p.1))).reverse).lookup c

/-- `calculateFingerDistance`: frequency-weighted Euclidean distance over the
bigram map, collapsed as `1/(1+avg)`. -/
def calculateFingerDistance (fe : FitnessEvaluator) (data : KeyloggerData)
    (charToPos : ℕ → Option ℕ) : ℚ :=
  let res := data.bigramFreq.foldl (fun (acc : ℚ × ℕ) entry =>
    match entry.1 with
    | [c1, c2] =>
      match charToPos c1, charToPos c2 with
      | some pos1, some pos2 =>
        match fe.geometry.keyPos pos1, fe.geometry.keyPos pos2 with
        | some coord1, some coord2 =>
          let distance := fe.sqrtQ ((coord1.1 - coord2.1) * (coord1.1 - coord2.1) +
            (coord1.2 - coord2.2) * (coord1.2 - coord2.2))
          (acc.1 + distance * (entry.2 : ℚ), acc.2 + entry.2)
        | _, _ => acc
      | _, _ => acc
    | _ => acc) (0, 0)
  if res.2 = 0 then 0
  else 1 / (1 + res.1 / (res.2 : ℚ))

/-- `calculateHandAlternation`: fraction of counted bigram mass whose two
fingers lie on different hands. -/
def calculateHandAlternation (fe : FitnessEvaluator) (data : KeyloggerData)
    (charToPos : ℕ → Option ℕ) : ℚ :=
  let res := data.bigramFreq.foldl (fun (acc : ℕ × ℕ) entry =>
    match entry.1 with
    | [c1, c2] =>
      match charToPos c1, charToPos c2 with
      | some pos1, some pos2 =>
        match fe.geometry.finger pos1, fe.geometry.finger pos2 with
        | some finger1, some finger2 =>
          let alt := if (finger1 < 4 ∧ 4 ≤ finger2) ∨ (4 ≤ finger1 ∧ finger2 < 4)
            then entry.2 else 0
          (acc.1 + alt, acc.2 + entry.2)
        | _, _ => acc
      | _, _ => acc
    | _ => acc) (0, 0)
  if res.2 = 0 then 0
  else (res.1 : ℚ) / (res.2 : ℚ)

/-- `calculateFingerBalance`: 1/(1 + stddev/mean) of per-finger character
mass over the eight fingers. -/
def calculateFingerBalance (fe : FitnessEvaluator) (cs : CharacterSet)
    (data : KeyloggerData) (charToPos : ℕ → Option ℕ) : ℚ :=
  let res := cs.chars.foldl (fun (acc : List ℕ × ℕ) c =>
    match charToPos c with
    | some pos =>
      match fe.geometry.finger pos with
      | some finger =>
        let freq := data.GetCharFreq c
        (acc.1.set finger (acc.1.getD finger 0 + freq), acc.2 + freq)
      | none => acc
    | none => acc) (List.replicate 8 0, 0)
  if res.2 = 0 then 0
  else
    let mean : ℚ := (res.2 : ℚ) / 8
    let variance : ℚ := (res.1.foldl (fun v freq => v + ((freq : ℚ) - mean) * ((freq : ℚ) - mean)) 0) / 8
    let stdDev := fe.sqrtQ variance
    1 / (1 + stdDev / mean)

/-- `calculateRowJumping`: 1 minus the fraction of counted bigram mass whose
two keys differ in row (vertical distance above 0.5). -/
def calculateRowJumping (fe : FitnessEvaluator) (data : KeyloggerData)
    (charToPos : ℕ → Option ℕ) : ℚ :=
  let res := data.bigramFreq.foldl (fun (acc : ℕ × ℕ) entry =>
    match entry.1 with
    | [c1, c2] =>
      match charToPos c1, charToPos c2 with
      | some pos1, some pos2 =>
        match fe.geometry.keyPos pos1, fe.geometry.keyPos pos2 with
        | some coord1, some coord2 =>
          let jump := if |coord1.2 - coord2.2| > 1/2 then entry.2 else 0
          (acc.1 + jump, acc.2 + entry.2)
        | _, _ => acc
      | _, _ => acc
    | _ => acc) (0, 0)
  if res.2 = 0 then 1
  else 1 - (res.1 : ℚ) / (res.2 : ℚ)

/-- `rateBigramEfficiency`: per finger-pair efficiency table. -/
def rateBigramEfficiency (finger1 finger2 : ℕ) : ℚ :=
  if finger1 = finger2 then 1/10
  else if |(finger1 : ℤ) - (finger2 : ℤ)| = 1 ∧
      ((finger1 < 4 ∧ finger2 < 4) ∨ (4 ≤ finger1 ∧ 4 ≤ finger2)) then 3/10
  else if (finger1 < 4 ∧ 4 ≤ finger2) ∨ (4 ≤ finger1 ∧ finger2 < 4) then 1
  else 3/5

/-- `calculateBigramEfficiency`: frequency-weighted mean of the efficiency
table. -/
def calculateBigramEfficiency (fe : FitnessEvaluator) (data : KeyloggerData)
    (charToPos : ℕ → Option ℕ) : ℚ :=
  let res := data.bigramFreq.foldl (fun (acc : ℚ × ℕ) entry =>
    match entry.1 with
    | [c1, c2] =>
      match charToPos c1, charToPos c2 with
      | some pos1, some pos2 =>
        match fe.geometry.finger pos1, fe.geometry.finger pos2 with
        | some finger1, some finger2 =>
          (acc.1 + rateBigramEfficiency finger1 finger2 * (entry.2 : ℚ), acc.2 + entry.2)
        | _, _ => acc
      | _, _ => acc
    | _ => acc) (0, 0)
  if res.2 = 0 then 0
  else res.1 / (res.2 : ℚ)

/-- `calculateSameFingerBigrams`: 1 minus the same-finger fraction of counted
bigram mass. -/
def calculateSameFingerBigrams (fe : FitnessEvaluator) (data : KeyloggerData)
    (charToPos : ℕ → Option ℕ) : ℚ :=
  let res := data.bigramFreq.foldl (fun (acc : ℕ × ℕ) entry =>
    match entry.1 with
    | [c1, c2] =>
      match charToPos c1, charToPos c2 with
      | some pos1, some pos2 =>
        match fe.geometry.finger pos1, fe.geometry.finger pos2 with
        | some finger1, some finger2 =>
          let sfb := if finger1 = finger2 then entry.2 else 0
          (acc.1 + sfb, acc.2 + entry.2)
        | _, _ => acc
      | _, _ => acc
    | _ => acc) (0, 0)
  if res.2 = 0 then 1
  else 1 - (res.1 : ℚ) / (res.2 : ℚ)

/-- `calculateLateralStretches`: 1 minus the fraction of counted bigram mass
that is an index-finger lateral stretch (same row, above two column units). -/
def calculateLateralStretches (fe : FitnessEvaluator) (data : KeyloggerData)
    (charToPos : ℕ → Option ℕ) : ℚ :=
  let res := data.bigramFreq.foldl (fun (acc : ℕ × ℕ) entry =>
    match entry.1 with
    | [c1, c2] =>
      match charToPos c1, charToPos c2 with
      | some pos1, some pos2 =>
        match fe.geometry.finger pos1, fe.geometry.finger pos2,
            fe.geometry.keyPos pos1, fe.geometry.keyPos pos2 with
        | some finger1, some finger2, some coord1, some coord2 =>
          let isLSB :=
            (finger1 = 3 ∧ finger2 = 3 ∧ coord1.2 = coord2.2 ∧ |coord1.1 - coord2.1| > 2) ∨
            (finger1 = 4 ∧ finger2 = 4 ∧ coord1.2 = coord2.2 ∧ |coord1.1 - coord2.1| > 2)
          let lsb := if isLSB then entry.2 else 0
          (acc.1 + lsb, acc.2 + entry.2)
        | _, _, _, _ => acc
      | _, _ => acc
    | _ => acc) (0, 0)
  if res.2 = 0 then 1
  else 1 - (res.1 : ℚ) / (res.2 : ℚ)

/-- The roll-counting loop of `calculateRollQuality`: returns
`(rollCount, totalBigrams)`; a roll is same hand, adjacent fingers, same row
(vertical distance below 0.3). -/
def rollStats (fe : FitnessEvaluator) (data : KeyloggerData)
    (charToPos : ℕ → Option ℕ) : ℕ × ℕ :=
  data.bigramFreq.foldl (fun (acc : ℕ × ℕ) entry =>
    match entry.1 with
    | [c1, c2] =>
      match charToPos c1, charToPos c2 with
      | some pos1, some pos2 =>
        match fe.geometry.finger pos1, fe.geometry.finger pos2,
            fe.geometry.keyPos pos1, fe.geometry.keyPos pos2 with
        | some finger1, some finger2, some coord1, some coord2 =>
          let sameHand := (finger1 < 4 ∧ finger2 < 4) ∨ (4 ≤ finger1 ∧ 4 ≤ finger2)
          let adjacentFingers := |(finger1 : ℤ) - (finger2 : ℤ)| = 1
          let sameRow := |coord1.2 - coord2.2| < 3/10
          let roll := if sameHand ∧ adjacentFingers ∧ sameRow then entry.2 else 0
          (acc.1 + roll, acc.2 + entry.2)
        | _, _, _, _ => acc
      | _, _ => acc
    | _ => acc) (0, 0)

/-- `calculateRollQuality`: threshold score on the total roll rate, with the
source's strict comparisons (`> 0.3` then `> 0.15`). -/
def calculateRollQuality (fe : FitnessEvaluator) (data : KeyloggerData)
    (charToPos : ℕ → Option ℕ) : ℚ :=
  let s := rollStats fe data charToPos
  if s.2 = 0 then 0
  else
    let totalRollRate : ℚ := (s.1 : ℚ) / (s.2 : ℚ)
    if totalRollRate > 3/10 then 1
    else if totalRollRate > 3/20 then 7/10
    else totalRollRate / (3/20) * (2/5)

/-- The Shift-modified characters of `calculateLayerPenalty` (uppercase
letters and shifted punctuation), as code points. -/
def shiftChars : List ℕ :=
  (List.range' 65 26) ++
    [33, 64, 35, 36, 37, 94, 38, 42, 40, 41, 95, 43, 123, 125, 124, 58, 34, 60, 62, 63]

/-- The AltGr characters of `calculateLayerPenalty`, as code points. -/
def altGrChars : List ℕ := [8364, 163, 165, 169, 174, 176]

/-- `calculateLayerPenalty`: modifier-key penalty over character frequencies
plus bigram penalties for consecutive modifiers, collapsed as `1/(1+norm)`. -/
def calculateLayerPenalty (cs : CharacterSet) (data : KeyloggerData) : ℚ :=
  let charRes := cs.chars.foldl (fun (acc : ℚ × ℕ) c =>
    let freq := data.GetCharFreq c
    if freq > 0 then
      let pen : ℚ :=
        if c ∈ shiftChars then (freq : ℚ) * (1/2)
        else if c ∈ altGrChars then (freq : ℚ) * 1
        else 0
      (acc.1 + pen, acc.2 + freq)
    else acc) (0, 0)
  let res := data.bigramFreq.foldl (fun (acc : ℚ × ℕ) entry =>
    match entry.1 with
    | [c1, c2] =>
      let pen1 : ℚ := if c1 ∈ shiftChars ∧ c2 ∈ shiftChars then (entry.2 : ℚ) * (3/10) else 0
      let pen2 : ℚ := if (c1 ∈ shiftChars ∧ c2 ∈ altGrChars) ∨
          (c1 ∈ altGrChars ∧ c2 ∈ shiftChars) then (entry.2 : ℚ) * (7/10) else 0
      (acc.1 + pen1 + pen2, acc.2 + entry.2)
    | _ => acc) charRes
  if res.2 = 0 then 1
  else 1 / (1 + res.1 / (res.2 : ℚ))

/-- Home-row positions of `calculateHomeRowBonus`. -/
def homeRowPositions : List ℕ := [10, 11, 12, 13, 14, 15, 16, 17, 18]

/-- `calculateHomeRowBonus`: piecewise bonus on the home-row usage fraction. -/
def calculateHomeRowBonus (cs : CharacterSet) (data : KeyloggerData)
    (charToPos : ℕ → Option ℕ) : ℚ :=
  let res := cs.chars.foldl (fun (acc : ℕ × ℕ) c =>
    let freq := data.GetCharFreq c
    if freq > 0 then
      let home :=
        match charToPos c with
        | some pos => if pos ∈ homeRowPositions then freq else 0
        | none => 0
      (acc.1 + home, acc.2 + freq)
    else acc) (0, 0)
  if res.2 = 0 then 0
  else
    let homeRowUsage : ℚ := (res.1 : ℚ) / (res.2 : ℚ)
    if homeRowUsage > 2/5 then 1 + (homeRowUsage - 2/5) * 2
    else if homeRowUsage > 3/10 then homeRowUsage / (2/5)
    else homeRowUsage / (2/5) * (1/2)

/-- `calculateRollRatioTarget`: distance of the roll fraction among same-hand
bigrams from the 0.35 target. -/
def calculateRollRatioTarget (fe : FitnessEvaluator) (data : KeyloggerData)
    (charToPos : ℕ → Option ℕ) : ℚ :=
  let res := data.bigramFreq.foldl (fun (acc : ℕ × ℕ) entry =>
    match entry.1 with
    | [c1, c2] =>
      match charToPos c1, charToPos c2 with
      | some pos1, some pos2 =>
        match fe.geometry.finger pos1, fe.geometry.finger pos2,
            fe.geometry.keyPos pos1, fe.geometry.keyPos pos2 with
        | some finger1, some finger2, some coord1, some coord2 =>
          let sameHand := (finger1 < 4 ∧ finger2 < 4) ∨ (4 ≤ finger1 ∧ 4 ≤ finger2)
          if sameHand then
            let adjacentFingers := |(finger1 : ℤ) - (finger2 : ℤ)| = 1
            let sameRow := |coord1.2 - coord2.2| < 3/10
            let roll := if adjacentFingers ∧ sameRow then entry.2 else 0
            (acc.1 + roll, acc.2 + entry.2)
          else acc
        | _, _, _, _ => acc
      | _, _ => acc
    | _ => acc) (0, 0)
  if res.2 = 0 then 0
  else
    let rollRatio : ℚ := (res.1 : ℚ) / (res.2 : ℚ)
    let deviation := |rollRatio - 7/20|
    max 0 (1 - deviation * 2)

/-- `calculateThresholdBonuses`: step bonuses for alternation, roll-score and
same-finger-bigram thresholds, normalized by 3. -/
def calculateThresholdBonuses (fe : FitnessEvaluator) (data : KeyloggerData)
    (charToPos : ℕ → Option ℕ) (alternationScore rollScore : ℚ) : ℚ :=
  let b1 : ℚ :=
    if alternationScore > 3/5 then 1
    else if alternationScore > 9/20 then 3/5
    else if alternationScore > 3/10 then 3/10
    else 0
  let b2 : ℚ :=
    if rollScore > 2/5 then 4/5
    else if rollScore > 1/5 then 2/5
    else 0
  let res := data.bigramFreq.foldl (fun (acc : ℕ × ℕ) entry =>
    match entry.1 with
    | [c1, c2] =>
      match charToPos c1, charToPos c2 with
      | some pos1, some pos2 =>
        match fe.geometry.finger pos1, fe.geometry.finger pos2 with
        | some finger1, some finger2 =>
          let sfb := if finger1 = finger2 then entry.2 else 0
          (acc.1 + sfb, acc.2 + entry.2)
        | _, _ => acc
      | _, _ => acc
    | _ => acc) (0, 0)
  let b3 : ℚ :=
    if res.2 > 0 then
      let sfbRate : ℚ := (res.1 : ℚ) / (res.2 : ℚ)
      if sfbRate < 1/50 then 1
      else if sfbRate < 1/20 then 1/2
      else 0
    else 0
  (b1 + b2 + b3) / 3

/-- The per-position ergonomic score table of `calculatePositionMatching`. -/
def ergonomicScores : List (ℕ × ℚ) :=
  [(13, 1), (14, 1), (15, 1), (16, 1), (12, 9/10), (17, 9/10),
   (11, 7/10), (18, 7/10), (10, 3/5),
   (3, 4/5), (4, 4/5), (5, 4/5), (6, 4/5), (2, 7/10), (7, 7/10),
   (1, 1/2), (8, 1/2), (9, 1/2), (0, 2/5),
   (22, 3/5), (23, 3/5), (24, 3/5), (21, 1/2), (25, 1/2), (20, 2/5), (19, 3/10)]

/-- `calculatePositionMatching`: frequency-weighted mean ergonomic score. -/
def calculatePositionMatching (cs : CharacterSet) (data : KeyloggerData)
    (charToPos : ℕ → Option ℕ) : ℚ :=
  let res := cs.chars.foldl (fun (acc : ℚ × ℕ) c =>
    let freq := data.GetCharFreq c
    if freq > 0 then
      match charToPos c with
      | some pos =>
        match ergonomicScores.lookup pos with
        | some ergScore => (acc.1 + ergScore * (freq : ℚ), acc.2 + freq)
        | none => acc
      | none => acc
    else acc) (0, 0)
  if res.2 = 0 then 0
  else res.1 / (res.2 : ℚ)

/-- The component computation and weighted sum of `Evaluate`, i.e. everything
after the `IsValid` guard. -/
def evaluateComponents (fe : FitnessEvaluator) (layout : List ℕ)
    (cs : CharacterSet) (data : KeyloggerData) : ℚ :=
  let charToPos := fun c => charToPosLookup layout c
  let distanceScore := calculateFingerDistance fe data charToPos
  let alternationScore := calculateHandAlternation fe data charToPos
  let balanceScore := calculateFingerBalance fe cs data charToPos
  let rowJumpScore := calculateRowJumping fe data charToPos
  let bigramScore := calculateBigramEfficiency fe data charToPos
  let sfbPenalty := calculateSameFingerBigrams fe data charToPos
  let lsbPenalty := calculateLateralStretches fe data charToPos
  let rollScore := calculateRollQuality fe data charToPos
  let layerPenalty := calculateLayerPenalty cs data
  let homeRowScore := calculateHomeRowBonus cs data charToPos
  let rollRatioScore := calculateRollRatioTarget fe data charToPos
  let thresholdBonus := calculateThresholdBonuses fe data charToPos alternationScore rollScore
  let positionScore := calculatePositionMatching cs data charToPos
  fe.weights.FingerDistance * distanceScore +
    fe.weights.HandAlternation * alternationScore +
    fe.weights.FingerBalance * balanceScore +
    fe.weights.RowJumping * rowJumpScore +
    fe.weights.BigramEfficiency * bigramScore +
    fe.weights.SameFingerBigrams * sfbPenalty +
    fe.weights.LateralStretches * lsbPenalty +
    fe.weights.RollQuality * rollScore +
    fe.weights.LayerPenalty * layerPenalty +
    fe.weights.HomeRowBonus * homeRowScore +
    fe.weights.RollRatioTarget * rollRatioScore +
    fe.weights.ThresholdBonuses * thresholdBonus +
    fe.weights.PositionMatching * positionScore

/-- `FitnessEvaluator.Evaluate`: the validity guard returning 0.0 for invalid
layouts, else the weighted component sum.  (The `charset == nil` guard of the
source is outside the model: the character set argument is always present.) -/
def FitnessEvaluator.Evaluate (fe : FitnessEvaluator) (layout : List ℕ)
    (cs : CharacterSet) (data : KeyloggerData) : ℚ :=
  if ¬ cs.IsValid layout then 0
  else evaluateComponents fe layout cs data

/-! ## Concrete instances used by witnesses and counterexamples -/

/-- `AlphabetOnly` from the source: the lowercase letters a–z as code points. -/
def AlphabetOnly : CharacterSet := ⟨List.range' 97 26⟩

/-- The identity layout on the alphabet character set. -/
def alphaLayout : List ℕ := List.range' 97 26

/-- An evaluator over the standard geometry and default weights; the
`math.Sqrt` abstraction is instantiated with the zero function (no claim
decided here depends on square-root values). -/
def fe0 : FitnessEvaluator := ⟨StandardGeometry, DefaultWeights, fun _ => 0⟩

/-- An empty frequency model. -/
def emptyData : KeyloggerData := ⟨[], [], 0⟩

/-- A frequency model whose counted bigram mass is exactly 30 percent rolls
under the identity alphabet layout: "ab" (a roll) with count 3 and "aj"
(cross-hand, not a roll) with count 7. -/
def rollData : KeyloggerData := ⟨[], [([97, 98], 3), ([97, 106], 7)], 0⟩

/-- The `charToPos` map of the identity alphabet layout. -/
def alphaCharToPos : ℕ → Option ℕ := fun c => charToPosLookup alphaLayout c

/-! ## C1: invalid layouts evaluate to exactly 0.0; valid layouts pass the
guard -/

/-- C1.  A layout violating any of the four Layout invariants (wrong length,
null code point, character outside the set, duplicate) is sent to fitness
exactly 0 by `Evaluate`, which being a total function raises nothing; a
layout satisfying all four invariants has `IsValid` true and `Evaluate`
computes the weighted component sum rather than taking the 0.0 invalid
branch. -/
theorem evaluate_zero_iff_invalid (fe : FitnessEvaluator) (cs : CharacterSet)
    (data : KeyloggerData) (layout : List ℕ) :
    (¬ LayoutInvariants cs layout → fe.Evaluate layout cs data = 0) ∧
    (LayoutInvariants cs layout → cs.IsValid layout = true ∧
      fe.Evaluate layout cs data = evaluateComponents fe layout cs data) := by
  constructor
  · intro hinv
    have hv : cs.IsValid layout ≠ true := fun h => hinv ((isValid_iff_invariants cs layout).mp h)
    unfold FitnessEvaluator.Evaluate
    simp [hv]
  · intro hinv
    have hv : cs.IsValid layout = true := (isValid_iff_invariants cs layout).mpr hinv
    refine ⟨hv, ?_⟩
    unfold FitnessEvaluator.Evaluate
    simp [hv]

/-- Witness for C1: the all-null 26-slot layout evaluates to exactly 0, and
the identity alphabet layout passes the validity guard. -/
theorem evaluate_zero_iff_invalid_witness :
    fe0.Evaluate (List.replicate 26 0) AlphabetOnly emptyData = 0 ∧
      AlphabetOnly.IsValid alphaLayout = true :=
  ⟨(evaluate_zero_iff_invalid fe0 AlphabetOnly emptyData (List.replicate 26 0)).1
      (by decide),
    ((evaluate_zero_iff_invalid fe0 AlphabetOnly emptyData alphaLayout).2
      (by decide)).1⟩

/-! ## C8: RollQuality thresholds are strict in the source -/

/-- C8 counterexample.  Under the identity alphabet layout and a frequency
model whose roll fraction is exactly 0.30, the claimed `r ≥ 0.30 → 1.0` rule
fails: the source compares with strict `>` and returns 0.7. -/
theorem rollQuality_boundary_counterexample :
    ((3 : ℚ)/10 ≤
      ((rollStats fe0 rollData alphaCharToPos).1 : ℚ) /
        ((rollStats fe0 rollData alphaCharToPos).2 : ℚ)) ∧
    calculateRollQuality fe0 rollData alphaCharToPos ≠ 1 := by
  constructor
  · with_unfolding_all decide
  · with_unfolding_all decide

/-- C8 as amended: with `r` the roll fraction of the counted digram mass, the
component returns 1.0 when `r > 0.30`, 0.7 when `0.15 < r ≤ 0.30`, and
`r/0.15 · 0.4` when `r ≤ 0.15` (strict thresholds, matching the source's
`> 0.3` / `> 0.15` comparisons; in particular `r = 0.30` scores 0.7 and
`r = 0.15` scores 0.4). -/
theorem rollQuality_threshold_cases (fe : FitnessEvaluator) (data : KeyloggerData)
    (charToPos : ℕ → Option ℕ)
    (hnz : (rollStats fe data charToPos).2 ≠ 0) :
    let r : ℚ := ((rollStats fe data charToPos).1 : ℚ) /
      ((rollStats fe data charToPos).2 : ℚ)
    ((3 : ℚ)/10 < r → calculateRollQuality fe data charToPos = 1) ∧
    ((3 : ℚ)/20 < r ∧ r ≤ 3/10 → calculateRollQuality fe data charToPos = 7/10) ∧
    (r ≤ (3 : ℚ)/20 → calculateRollQuality fe data charToPos = r / (3/20) * (2/5)) := by
  intro r
  unfold calculateRollQuality
  refine ⟨?_, ?_, ?_⟩
  · intro h
    simp only [hnz, if_false]
    rw [if_pos (by exact h)]
  · rintro ⟨h1, h2⟩
    simp only [hnz, if_false]
    rw [if_neg (by exact not_lt.mpr h2), if_pos (by exact h1)]
  · intro h
    simp only [hnz, if_false]
    rw [if_neg (by exact not_lt.mpr (h.trans (by norm_num))),
      if_neg (by exact not_lt.mpr h)]

/-- Witness for the amended C8: at the concrete 0.30 roll fraction the middle
case applies and the component returns 0.7. -/
theorem rollQuality_threshold_cases_witness :
    calculateRollQuality fe0 rollData alphaCharToPos = 7/10 :=
  (rollQuality_threshold_cases fe0 rollData alphaCharToPos
      (by with_unfolding_all decide)).2.1
    ⟨by with_unfolding_all decide, by with_unfolding_all decide⟩

/-! ## C9: corpus sufficiency check (`KeyloggerData.Validate`)

In `Runner.runFromReader` the error return of `Validate` happens directly
after parsing, before the fitness evaluator and the genetic algorithm are
constructed, so a rejection is surfaced before any generation runs.
-/

inductive ValidateError where
  | insufficientData (totalChars : ℕ)
  | insufficientCharacterDiversity (uniqueChars : ℕ)
  | insufficientBigramData (uniqueBigrams : ℕ)
  deriving DecidableEq, Repr

/-- `KeyloggerData.Validate` from the source: fewer than 100 total characters,
fewer than 10 distinct characters, or fewer than 20 distinct bigrams is an
error; otherwise `nil`. -/
def KeyloggerData.Validate (kd : KeyloggerData) : Option ValidateError :=
  if kd.totalChars < 100 then some (.insufficientData kd.totalChars)
  else if kd.charFrequency.length < 10 then
    some (.insufficientCharacterDiversity kd.charFrequency.length)
  else if kd.bigramFreq.length < 20 then
    some (.insufficientBigramData kd.bigramFreq.length)
  else none

/-- C9.  The corpus-sufficiency check returns an error exactly when the
parsed data has fewer than 100 total characters, fewer than 10 distinct
characters, or fewer than 20 distinct digrams. -/
theorem validate_rejects_iff (kd : KeyloggerData) :
    (kd.Validate).isSome = true ↔
      (kd.totalChars < 100 ∨ kd.charFrequency.length < 10 ∨
        kd.bigramFreq.length < 20) := by
  unfold KeyloggerData.Validate
  split_ifs with h1 h2 h3 <;> simp_all

/-! ## ValidateChild (pkg/genetic/crossover.go)

Repair of invalid layouts.  Phase 1 scans the layout once: a position is
invalid when it holds the null character, a character outside the set, or a
duplicate of an already-seen character; kept characters enter `seen` and are
removed (first occurrence) from `missing`, which starts as all of
`validChars`.  The Go code collects the invalid indices in increasing order;
they are represented here as one Boolean flag per position.  Phase 2 rewrites
each invalid position with the next missing character while missing
characters remain (`missingIdx < len(missing)`).  (The `child.Charset == nil`
default of the source is outside the model: the character set argument is
always present.)
-/


/-- Whether a position holding `c` is invalid in the repair scan, given the
characters already seen: null, outside the set, or duplicate. -/
def invalidSlot (cs : CharacterSet) (c : ℕ) (seen : List ℕ) : Prop :=
  c = 0 ∨ ¬ cs.Contains c ∨ c ∈ seen

instance (cs : CharacterSet) (c : ℕ) (seen : List ℕ) :
    Decidable (invalidSlot cs c seen) := by
  unfold invalidSlot; infer_instance

/-- Phase 1 of `ValidateChild`, validity flags: one flag per position. -/
def scanFlags (cs : CharacterSet) : List ℕ → List ℕ → List Bool
  | [], _ => []
  | c :: rest, seen =>
    if invalidSlot cs c seen then false :: scanFlags cs rest seen
    else true :: scanFlags cs rest (c :: seen)

/-- Phase 1 of `ValidateChild`, final missing list: kept characters are
removed (first occurrence) from `missing`, which starts as `validChars`. -/
def scanMissing (cs : CharacterSet) : List ℕ → List ℕ → List ℕ → List ℕ
  | [], _, missing => missing
  | c :: rest, seen, missing =>
    if invalidSlot cs c seen then scanMissing cs rest seen missing
    else scanMissing cs rest (c :: seen) (missing.erase c)

/-- Phase 2 of `ValidateChild`: fill the invalid positions, in increasing
order, with the missing characters in order. -/
def fillInvalid : List ℕ → List Bool → List ℕ → List ℕ
  | [], _, _ => []
  | c :: rest, [], _ => c :: rest
  | c :: rest, f :: fs, missing =>
    if f then c :: fillInvalid rest fs missing
    else
      match missing with
      | [] => c :: fillInvalid rest fs []
      | m :: ms => m :: fillInvalid rest fs ms

/-- `ValidateChild` from the source: return valid layouts unchanged,
otherwise repair in place. -/
def ValidateChild (cs : CharacterSet) (layout : List ℕ) : List ℕ :=
  if cs.IsValid layout then layout
  else fillInvalid layout (scanFlags cs layout []) (scanMissing cs layout [] cs.chars)

/-- The characters kept (found valid) by the repair scan, in order. -/
def keptChars (cs : CharacterSet) : List ℕ → List ℕ → List ℕ
  | [], _ => []
  | c :: rest, seen =>
    if invalidSlot cs c seen then keptChars cs rest seen
    else c :: keptChars cs rest (c :: seen)

lemma keptChars_length_le (cs : CharacterSet) :
    ∀ (l seen : List ℕ), (keptChars cs l seen).length ≤ l.length := by
  intro l
  induction l with
  | nil => intro seen; simp [keptChars]
  | cons c rest ih =>
    intro seen
    by_cases h : invalidSlot cs c seen
    · rw [keptChars, if_pos h]
      exact (ih seen).trans (by simp)
    · rw [keptChars, if_neg h]
      exact Nat.succ_le_succ (ih (c :: seen))

lemma fillInvalid_length :
    ∀ (l : List ℕ) (fs : List Bool) (missing : List ℕ),
      (fillInvalid l fs missing).length = l.length := by
  intro l
  induction l with
  | nil => intro fs missing; simp [fillInvalid]
  | cons c rest ih =>
    intro fs missing
    match fs with
    | [] => simp [fillInvalid]
    | f :: fs' =>
      by_cases hf : f = true
      · simp [fillInvalid, hf, ih]
      · have hf' : f = false := by simpa using hf
        subst hf'
        match missing with
        | [] => simp [fillInvalid, ih]
        | m :: ms => simp [fillInvalid, ih]

/-- The repair scan removes exactly the kept characters from `missing`:
kept characters followed by the final missing list is a permutation of the
initial missing list. -/
lemma scanMissing_perm (cs : CharacterSet) :
    ∀ (l seen missing : List ℕ),
      (∀ c, c ≠ 0 → cs.Contains c → c ∉ seen → c ∈ missing) →
      (keptChars cs l seen ++ scanMissing cs l seen missing).Perm missing := by
  intro l
  induction l with
  | nil =>
    intro seen missing _
    simp [keptChars, scanMissing]
  | cons c rest ih =>
    intro seen missing hmiss
    by_cases h : invalidSlot cs c seen
    · rw [keptChars, if_pos h, scanMissing, if_pos h]
      exact ih seen missing hmiss
    · have h' := h
      unfold invalidSlot at h'
      push_neg at h'
      obtain ⟨hc0, hcont, hcseen⟩ := h'
      have hcmiss : c ∈ missing := hmiss c hc0 hcont hcseen
      have hinv : ∀ x, x ≠ 0 → cs.Contains x → x ∉ c :: seen → x ∈ missing.erase c := by
        intro x hx0 hxcont hxseen
        have hxc : x ≠ c := fun hxc => hxseen (hxc ▸ List.mem_cons_self c seen)
        have hxseen' : x ∉ seen := fun hs => hxseen (List.mem_cons_of_mem _ hs)
        exact (List.mem_erase_of_ne hxc).mpr (hmiss x hx0 hxcont hxseen')
      rw [keptChars, if_neg h, scanMissing, if_neg h, List.cons_append]
      exact ((ih (c :: seen) (missing.erase c) hinv).cons c).trans
        (List.perm_cons_erase hcmiss).symm

/-- Filling the invalid slots distributes the queue across the kept
characters: the result is a permutation of kept characters plus the queue,
provided the queue length matches the number of invalid positions. -/
lemma fillInvalid_perm (cs : CharacterSet) :
    ∀ (l seen q : List ℕ),
      q.length + (keptChars cs l seen).length = l.length →
      (fillInvalid l (scanFlags cs l seen) q).Perm (keptChars cs l seen ++ q) := by
  intro l
  induction l with
  | nil =>
    intro seen q hq
    have : q = [] := List.length_eq_zero.mp (by simpa [keptChars] using hq)
    subst this
    simp [fillInvalid, scanFlags, keptChars]
  | cons c rest ih =>
    intro seen q hq
    by_cases h : invalidSlot cs c seen
    · rw [keptChars, if_pos h] at hq ⊢
      rw [scanFlags, if_pos h]
      have hlen : (keptChars cs rest seen).length ≤ rest.length :=
        keptChars_length_le cs rest seen
      match q with
      | [] =>
        exfalso
        simp only [List.length_nil, Nat.zero_add, List.length_cons] at hq
        omega
      | m :: ms =>
        have hq' : ms.length + (keptChars cs rest seen).length = rest.length := by
          simp only [List.length_cons] at hq
          omega
        exact ((ih seen ms hq').cons m).trans List.perm_middle.symm
    · rw [keptChars, if_neg h] at hq
      simp only [List.length_cons] at hq
      rw [keptChars, if_neg h, scanFlags, if_neg h, List.cons_append]
      have hq' : q.length + (keptChars cs rest (c :: seen)).length = rest.length := by
        omega
      exact (ih (c :: seen) q hq').cons c

/-- Repair output is a permutation of the character set whenever the input
has the right length. -/
lemma validateChild_perm (cs : CharacterSet) (layout : List ℕ)
    (hlen : layout.length = cs.Size) :
    (ValidateChild cs layout).Perm cs.chars := by
  unfold ValidateChild
  by_cases hv : cs.IsValid layout = true
  · rw [if_pos hv]
    obtain ⟨-, -, hmem, hnodup⟩ := (isValid_iff_invariants cs layout).mp hv
    refine (List.subperm_of_subset hnodup ?_).perm_of_length_le ?_
    · intro x hx; exact hmem x hx
    · rw [hlen]; rfl
  · rw [if_neg hv]
    have hperm := scanMissing_perm cs layout [] cs.chars
      (fun c _ hc _ => hc)
    have hlen2 : (scanMissing cs layout [] cs.chars).length +
        (keptChars cs layout []).length = layout.length := by
      have := hperm.length_eq
      simp only [List.length_append] at this
      have hsz : cs.chars.length = cs.Size := rfl
      omega
    exact (fillInvalid_perm cs layout [] (scanMissing cs layout [] cs.chars)
      hlen2).trans hperm

/-- C10.  Repair never changes the layout length; consequently an input whose
length differs from the character-set size still fails `IsValid` after
repair, while (for a duplicate-free, null-free character set) every input of
the correct length is repaired to a layout satisfying `IsValid`. -/
theorem validateChild_length_invariant (cs : CharacterSet) (layout : List ℕ) :
    (ValidateChild cs layout).length = layout.length ∧
    (layout.length ≠ cs.Size → cs.IsValid (ValidateChild cs layout) = false) ∧
    (cs.chars.Nodup → (0 : ℕ) ∉ cs.chars → layout.length = cs.Size →
      cs.IsValid (ValidateChild cs layout) = true) := by
  have hlenpres : (ValidateChild cs layout).length = layout.length := by
    unfold ValidateChild
    by_cases hv : cs.IsValid layout = true
    · rw [if_pos hv]
    · rw [if_neg hv]
      exact fillInvalid_length layout _ _
  refine ⟨hlenpres, ?_, ?_⟩
  · intro hne
    by_contra hcontra
    have hvtrue : cs.IsValid (ValidateChild cs layout) = true := by
      cases h : cs.IsValid (ValidateChild cs layout) with
      | false => exact absurd h hcontra
      | true => rfl
    obtain ⟨hl, -, -, -⟩ := (isValid_iff_invariants cs _).mp hvtrue
    exact hne (hlenpres ▸ hl)
  · intro hnd h0 hlen
    have hperm := validateChild_perm cs layout hlen
    refine (isValid_iff_invariants cs _).mpr ⟨?_, ?_, ?_, ?_⟩
    · rw [hlenpres, hlen]
    · intro c hc
      intro hc0
      exact h0 (hc0 ▸ hperm.mem_iff.mp hc)
    · intro c hc
      exact hperm.mem_iff.mp hc
    · exact hperm.nodup_iff.mpr hnd

/-- Witness for C10: a two-slot duplicate layout keeps length 2 after repair
and stays invalid for the 26-character alphabet set, while the all-null
26-slot layout is repaired to a valid layout. -/
theorem validateChild_length_invariant_witness :
    (ValidateChild AlphabetOnly [97, 97]).length = 2 ∧
    AlphabetOnly.IsValid (ValidateChild AlphabetOnly [97, 97]) = false ∧
    AlphabetOnly.IsValid (ValidateChild AlphabetOnly (List.replicate 26 0)) = true :=
  ⟨(validateChild_length_invariant AlphabetOnly [97, 97]).1,
    (validateChild_length_invariant AlphabetOnly [97, 97]).2.1 (by decide),
    (validateChild_length_invariant AlphabetOnly (List.replicate 26 0)).2.2
      (by decide) (by decide) (by decide)⟩

/-! ## Individuals and swap mutation (pkg/genetic types and mutation source)

`Individual` carries the layout, the cached fitness and the age; the shared
`Charset` pointer of the Go struct is modelled as a separate `CharacterSet`
argument where needed.  `Clone` copies the permutation storage, which for
Lean values is the value itself.
-/

structure Individual where
  layout : List ℕ
  fitness : ℚ
  age : ℕ
  deriving DecidableEq, Repr

instance : Inhabited Individual := ⟨⟨[], 0, 0⟩⟩

/-- `Individual.Clone`: a deep copy (value copy in the model). -/
def Individual.Clone (ind : Individual) : Individual :=
  ⟨ind.layout, ind.fitness, ind.age⟩

/-- `swapMutation` from the source: exchange the characters at two positions
(the Go parallel assignment reads both old values).  The two positions are
drawn by `rand.Intn`, re-drawing `pos2` until it differs from `pos1` when the
layout has more than one slot; the model takes the finally chosen positions
as parameters. -/
def swapMutation (layout : List ℕ) (pos1 pos2 : ℕ) : List ℕ :=
  (layout.set pos1 (layout.getD pos2 0)).set pos2 (layout.getD pos1 0)

/-- The swap-mutation `Mutator` with its `rate`; the `method` field is fixed
to the default `SwapMutation`, the variant all engine paths construct. -/
structure Mutator where
  rate : ℚ

/-- `Mutator.Apply` for swap mutation: skip mutation when the drawn
`rand.Float64` exceeds the rate, else clone, swap two positions and reset the
cached fitness. -/
def Mutator.Apply (m : Mutator) (individual : Individual) (r : ℚ)
    (pos1 pos2 : ℕ) : Individual :=
  if r > m.rate then individual
  else
    let mutated := individual.Clone
    { mutated with layout := swapMutation mutated.layout pos1 pos2, fitness := 0 }

lemma getD_cons_succ_eq (a : ℕ) (t : List ℕ) (k : ℕ) :
    (a :: t).getD (k + 1) 0 = t.getD k 0 := rfl

/-- Extracting the element at a position and writing a replacement there is a
permutation-preserving exchange. -/
lemma extract_set_perm :
    ∀ (t : List ℕ) (k : ℕ) (a : ℕ), k < t.length →
      (t.getD k 0 :: t.set k a).Perm (a :: t) := by
  intro t
  induction t with
  | nil => intro k a hk; simp at hk
  | cons b t' ih =>
    intro k a hk
    match k with
    | 0 =>
      simp only [List.getD_cons_zero, List.set_cons_zero]
      exact List.Perm.swap a b t'
    | m + 1 =>
      have hm : m < t'.length := by simpa using hk
      simp only [getD_cons_succ_eq, List.set_cons_succ]
      exact ((List.Perm.swap b (t'.getD m 0) (t'.set m a)).trans
        ((ih m a hm).cons b)).trans (List.Perm.swap a b t')

/-- Swapping two in-range positions permutes the layout. -/
lemma swapMutation_perm :
    ∀ (l : List ℕ) (i j : ℕ), i < l.length → j < l.length →
      (swapMutation l i j).Perm l := by
  intro l
  induction l with
  | nil => intro i j hi; simp at hi
  | cons a t ih =>
    intro i j hi hj
    match i, j with
    | 0, 0 =>
      simp [swapMutation]
    | 0, k + 1 =>
      have hk : k < t.length := by simpa using hj
      simp only [swapMutation, List.getD_cons_zero, getD_cons_succ_eq,
        List.set_cons_zero, List.set_cons_succ]
      exact extract_set_perm t k a hk
    | m + 1, 0 =>
      have hm : m < t.length := by simpa using hi
      simp only [swapMutation, List.getD_cons_zero, getD_cons_succ_eq,
        List.set_cons_zero, List.set_cons_succ]
      exact extract_set_perm t m a hm
    | m + 1, k + 1 =>
      have hm : m < t.length := by simpa using hi
      have hk : k < t.length := by simpa using hj
      simp only [swapMutation, getD_cons_succ_eq, List.set_cons_succ]
      exact (ih m k hm hk).cons a

/-! ## Order crossover (pkg/genetic/crossover.go)

`orderCrossover` copies `parent1[point1..point2]` into the child, then walks
`parent2` once from index 0, placing each not-yet-used character at the next
free child position (the child index skips over the copied window and the
loop breaks at the end of the child), and finally runs a wrap-around loop if
the child index ended below `point1`.  The `used` map is modelled as a list
with membership.  The two `rand.IntN(length)` draws are parameters, swapped
so that `point1 ≤ point2` as in the source.
-/

/-- The window-copy loop of `orderCrossover`. -/
def windowCopy (l1 : List ℕ) (p1 p2 : ℕ) (child : List ℕ) : List ℕ :=
  (List.range' p1 (p2 + 1 - p1)).foldl (fun ch i => ch.set i (l1.getD i 0)) child

/-- The characters of the copied window, entered into `used`. -/
def windowChars (l1 : List ℕ) (p1 p2 : ℕ) : List ℕ :=
  (List.range' p1 (p2 + 1 - p1)).map (fun i => l1.getD i 0)

/-- The fill loop of `orderCrossover`: walk `parent2`; first normalize the
child index past the copied window, then break when the child is full,
otherwise place the character if it is unused.  Returns the final child,
child index and used set. -/
def oxFill (p1 p2 L : ℕ) : List ℕ → ℕ → List ℕ → List ℕ → (List ℕ × ℕ × List ℕ)
  | [], ci, child, used => (child, ci, used)
  | c :: rest, ci, child, used =>
    let ci' := if p1 ≤ ci ∧ ci ≤ p2 then p2 + 1 else ci
    if L ≤ ci' then (child, ci', used)
    else if c ∈ used then oxFill p1 p2 L rest ci' child used
    else oxFill p1 p2 L rest (ci' + 1) (child.set ci' c) (c :: used)

/-- The wrap-around loop of `orderCrossover`: walk `parent2` again while the
child index stays below `point1`. -/
def oxWrap (p1 : ℕ) : List ℕ → ℕ → List ℕ → List ℕ → List ℕ
  | [], _, child, _ => child
  | c :: rest, ci, child, used =>
    if ¬ ci < p1 then child
    else if c ∈ used then oxWrap p1 rest ci child used
    else oxWrap p1 rest (ci + 1) (child.set ci c) (c :: used)

/-- `Crossover.orderCrossover` from the source, producing the child layout
from the two parent layouts and the two cut-point draws. -/
def orderCrossover (l1 l2 : List ℕ) (q1 q2 : ℕ) : List ℕ :=
  let length := l1.length
  let point1 := min q1 q2
  let point2 := max q1 q2
  let child0 := windowCopy l1 point1 point2 (List.replicate length 0)
  let used0 := windowChars l1 point1 point2
  let r := oxFill point1 point2 length l2 0 child0 used0
  if r.2.1 < point1 then oxWrap point1 l2 r.2.1 r.1 r.2.2 else r.1

/-- Write the given characters at the given positions, one per position,
stopping when either list runs out. -/
def writeSlots (child : List ℕ) : List ℕ → List ℕ → List ℕ
  | [], _ => child
  | _ :: _, [] => child
  | p :: ps, c :: cs2 => writeSlots (child.set p c) ps cs2

/-- The free positions of the child from index `ci` on: every index below `L`
outside the window `[p1, p2]`, in increasing order. -/
def slots (p1 p2 L ci : ℕ) : List ℕ :=
  if h : ci < L then
    if p1 ≤ ci ∧ ci ≤ p2 then slots p1 p2 L (p2 + 1)
    else ci :: slots p1 p2 L (ci + 1)
  else []
termination_by L - ci
decreasing_by
  · omega
  · omega

/-- First-occurrence filter: the characters of a list not yet used, each
recorded once, in order. -/
def newChars (used : List ℕ) : List ℕ → List ℕ
  | [] => []
  | c :: rest =>
    if c ∈ used then newChars used rest
    else c :: newChars (c :: used) rest

/-- Normalizing the child index past the window does not change the free
positions. -/
lemma slots_norm (p1 p2 L ci : ℕ) :
    slots p1 p2 L ci = slots p1 p2 L (if p1 ≤ ci ∧ ci ≤ p2 then p2 + 1 else ci) := by
  by_cases hw : p1 ≤ ci ∧ ci ≤ p2
  · rw [if_pos hw]
    by_cases hL : ci < L
    · rw [slots, dif_pos hL, if_pos hw]
    · rw [slots, dif_neg hL, slots, dif_neg (by omega)]
  · rw [if_neg hw]

lemma slots_eq_nil (p1 p2 L ci : ℕ)
    (h : L ≤ (if p1 ≤ ci ∧ ci ≤ p2 then p2 + 1 else ci)) :
    slots p1 p2 L ci = [] := by
  rw [slots_norm]
  by_cases hw : p1 ≤ ci ∧ ci ≤ p2
  · rw [if_pos hw] at h ⊢
    rw [slots, dif_neg (by omega)]
  · rw [if_neg hw] at h ⊢
    rw [slots, dif_neg (by omega)]

lemma slots_eq_cons (p1 p2 L ci : ℕ)
    (h : (if p1 ≤ ci ∧ ci ≤ p2 then p2 + 1 else ci) < L) :
    slots p1 p2 L ci =
      (if p1 ≤ ci ∧ ci ≤ p2 then p2 + 1 else ci) ::
        slots p1 p2 L ((if p1 ≤ ci ∧ ci ≤ p2 then p2 + 1 else ci) + 1) := by
  rw [slots_norm]
  by_cases hw : p1 ≤ ci ∧ ci ≤ p2
  · rw [if_pos hw] at h ⊢
    rw [slots, dif_pos h, if_neg (by omega)]
  · rw [if_neg hw] at h ⊢
    by_cases hw' : p1 ≤ ci ∧ ci ≤ p2
    · exact absurd hw' hw
    · rw [slots, dif_pos h, if_neg hw]

/-- The child produced by the fill loop writes the new characters of
`parent2` into the free slots in increasing order. -/
lemma oxFill_child_eq (p1 p2 L : ℕ) :
    ∀ (cs2 : List ℕ) (ci : ℕ) (child used : List ℕ),
      (oxFill p1 p2 L cs2 ci child used).1 =
        writeSlots child (slots p1 p2 L ci) (newChars used cs2) := by
  intro cs2
  induction cs2 with
  | nil =>
    intro ci child used
    rw [oxFill, newChars]
    cases slots p1 p2 L ci with
    | nil => rw [writeSlots]
    | cons p ps => rw [writeSlots]
  | cons c rest ih =>
    intro ci child used
    rw [oxFill]
    by_cases hL : L ≤ (if p1 ≤ ci ∧ ci ≤ p2 then p2 + 1 else ci)
    · rw [if_pos hL, slots_eq_nil p1 p2 L ci hL, writeSlots]
    · rw [if_neg hL]
      push_neg at hL
      by_cases hc : c ∈ used
      · rw [if_pos hc, ih, newChars, if_pos hc, ← slots_norm p1 p2 L ci]
      · rw [if_neg hc, ih, newChars, if_neg hc, slots_eq_cons p1 p2 L ci hL,
          writeSlots]

/-- If the fill loop finishes with a child index below the child length, then
every character of the walked list ends up used. -/
lemma oxFill_used_complete (p1 p2 L : ℕ) :
    ∀ (cs2 : List ℕ) (ci : ℕ) (child used : List ℕ),
      (oxFill p1 p2 L cs2 ci child used).2.1 < L →
      ∀ x, (x ∈ used ∨ x ∈ cs2) → x ∈ (oxFill p1 p2 L cs2 ci child used).2.2 := by
  intro cs2
  induction cs2 with
  | nil =>
    intro ci child used _ x hx
    rw [oxFill] at *
    rcases hx with h | h
    · exact h
    · simp at h
  | cons c rest ih =>
    intro ci child used hlt x hx
    rw [oxFill] at hlt ⊢
    by_cases hL : L ≤ (if p1 ≤ ci ∧ ci ≤ p2 then p2 + 1 else ci)
    · rw [if_pos hL] at hlt
      exact absurd (show (if p1 ≤ ci ∧ ci ≤ p2 then p2 + 1 else ci) < L from hlt)
        (by omega)
    · rw [if_neg hL] at hlt ⊢
      by_cases hc : c ∈ used
      · rw [if_pos hc] at hlt ⊢
        refine ih _ _ _ hlt x ?_
        rcases hx with h | h
        · exact Or.inl h
        · rcases List.mem_cons.mp h with h | h
          · exact Or.inl (h ▸ hc)
          · exact Or.inr h
      · rw [if_neg hc] at hlt ⊢
        refine ih _ _ _ hlt x ?_
        rcases hx with h | h
        · exact Or.inl (List.mem_cons_of_mem _ h)
        · rcases List.mem_cons.mp h with h | h
          · exact Or.inl (h ▸ List.mem_cons_self c used)
          · exact Or.inr h

/-- The wrap-around loop does nothing when every character of the walked list
is already used. -/
lemma oxWrap_id (p1 : ℕ) :
    ∀ (l : List ℕ) (ci : ℕ) (child used : List ℕ),
      (∀ x ∈ l, x ∈ used) → oxWrap p1 l ci child used = child := by
  intro l
  induction l with
  | nil => intro ci child used _; rw [oxWrap]
  | cons c rest ih =>
    intro ci child used hall
    rw [oxWrap]
    by_cases hci : ¬ ci < p1
    · rw [if_pos hci]
    · rw [if_neg hci, if_pos (hall c (List.mem_cons_self c rest))]
      exact ih ci child used (fun x hx => hall x (List.mem_cons_of_mem _ hx))

lemma writeSlots_nil_chars : ∀ (child ps : List ℕ), writeSlots child ps [] = child := by
  intro child ps
  cases ps with
  | nil => rw [writeSlots]
  | cons p ps' => rw [writeSlots]

lemma writeSlots_append :
    ∀ (ps qs child cs : List ℕ),
      writeSlots child (ps ++ qs) cs =
        writeSlots (writeSlots child ps (cs.take ps.length)) qs (cs.drop ps.length) := by
  intro ps
  induction ps with
  | nil =>
    intro qs child cs
    rw [List.nil_append, List.length_nil, List.take_zero, List.drop_zero,
      writeSlots_nil_chars]
  | cons p ps' ih =>
    intro qs child cs
    cases cs with
    | nil =>
      rw [writeSlots_nil_chars, List.take_nil, List.drop_nil,
        writeSlots_nil_chars, writeSlots_nil_chars]
    | cons c cs' =>
      rw [List.cons_append, writeSlots, ih qs (child.set p c) cs',
        List.length_cons, List.take_succ_cons, List.drop_succ_cons, writeSlots]

lemma range'_shift : ∀ (k a : ℕ),
    List.range' (a + 1) k = (List.range' a k).map (fun i => i + 1) := by
  intro k
  induction k with
  | zero => intro a; rfl
  | succ k ih =>
    intro a
    rw [List.range'_succ, List.range'_succ, List.map_cons, ih (a + 1)]

lemma writeSlots_shift :
    ∀ (ps : List ℕ) (x : ℕ) (child cs : List ℕ),
      writeSlots (x :: child) (ps.map (fun i => i + 1)) cs =
        x :: writeSlots child ps cs := by
  intro ps
  induction ps with
  | nil => intro x child cs; rw [List.map_nil, writeSlots, writeSlots]
  | cons p ps' ih =>
    intro x child cs
    cases cs with
    | nil => rw [writeSlots_nil_chars, writeSlots_nil_chars]
    | cons c cs' =>
      rw [List.map_cons, writeSlots, List.set_cons_succ, ih, writeSlots]

lemma writeSlots_range' :
    ∀ (a : ℕ) (child : List ℕ) (k : ℕ) (cs : List ℕ),
      cs.length = k → a + k ≤ child.length →
      writeSlots child (List.range' a k) cs =
        child.take a ++ cs ++ child.drop (a + k) := by
  intro a
  induction a with
  | zero =>
    intro child k
    induction k generalizing child with
    | zero =>
      intro cs hcs _
      have hnil : cs = [] := List.length_eq_zero.mp hcs
      subst hnil
      rw [show List.range' 0 0 = [] from rfl, writeSlots, List.append_nil,
        List.take_zero, List.drop_zero, List.nil_append]
    | succ k ihk =>
      intro cs hcs hle
      match child, cs with
      | x :: child', c :: cs' =>
        rw [List.range'_succ, writeSlots, List.set_cons_zero,
          range'_shift k 0, writeSlots_shift,
          ihk child' cs' (by simpa using hcs) (by simpa using hle)]
        simp [List.drop_succ_cons]
  | succ a iha =>
    intro child k cs hcs hle
    match child with
    | [] =>
      exfalso
      simp only [List.length_nil, Nat.le_zero] at hle
      omega
    | x :: child' =>
      rw [range'_shift, writeSlots_shift,
        iha child' k cs hcs (by simp only [List.length_cons] at hle; omega),
        List.take_succ_cons,
        show a + 1 + k = (a + k) + 1 from by omega,
        List.drop_succ_cons]
      simp [List.cons_append]

lemma newChars_eq_filter :
    ∀ (l used : List ℕ), l.Nodup →
      newChars used l = l.filter (fun c => decide (c ∉ used)) := by
  intro l
  induction l with
  | nil => intro used _; rw [newChars, List.filter_nil]
  | cons c rest ih =>
    intro used hnd
    have hnd' := List.nodup_cons.mp hnd
    rw [newChars, List.filter_cons]
    by_cases hc : c ∈ used
    · rw [if_pos hc, if_neg (by simpa using hc), ih used hnd'.2]
    · rw [if_neg hc, if_pos (by simpa using hc), ih (c :: used) hnd'.2]
      congr 1
      refine List.filter_congr ?_
      intro x hx
      have hxc : x ≠ c := fun h => hnd'.1 (h ▸ hx)
      simp [List.mem_cons, hxc]

lemma foldl_set_eq_writeSlots :
    ∀ (ps child : List ℕ) (f : ℕ → ℕ),
      ps.foldl (fun ch i => ch.set i (f i)) child = writeSlots child ps (ps.map f) := by
  intro ps
  induction ps with
  | nil => intro child f; rw [List.foldl_nil, List.map_nil, writeSlots]
  | cons p ps' ih =>
    intro child f
    rw [List.foldl_cons, List.map_cons, writeSlots, ih]

lemma windowCopy_eq_writeSlots (l1 : List ℕ) (p1 p2 : ℕ) (child : List ℕ) :
    windowCopy l1 p1 p2 child =
      writeSlots child (List.range' p1 (p2 + 1 - p1)) (windowChars l1 p1 p2) := by
  rw [windowCopy, windowChars, foldl_set_eq_writeSlots]

lemma range'_map_getD :
    ∀ (k a : ℕ) (l : List ℕ), a + k ≤ l.length →
      (List.range' a k).map (fun i => l.getD i 0) = (l.drop a).take k := by
  intro k
  induction k with
  | zero => intro a l _; rfl
  | succ k ih =>
    intro a l hle
    have ha : a < l.length := by omega
    rw [List.range'_succ, List.map_cons, ih (a + 1) l (by omega),
      List.getD_eq_getElem l 0 ha, List.drop_eq_getElem_cons ha,
      List.take_succ_cons]

lemma slots_gt (p1 p2 L : ℕ) :
    ∀ (n ci : ℕ), L - ci = n → p2 < ci →
      slots p1 p2 L ci = List.range' ci (L - ci) := by
  intro n
  induction n with
  | zero =>
    intro ci hn _
    rw [slots, dif_neg (by omega), hn]
    rfl
  | succ n ih =>
    intro ci hn hgt
    rw [slots, dif_pos (by omega), if_neg (by omega), hn, List.range'_succ,
      ih (ci + 1) (by omega) (by omega),
      show L - (ci + 1) = n from by omega]

lemma slots_le (p1 p2 L : ℕ) (hp : p1 ≤ p2) (hL : p2 < L) :
    ∀ (n ci : ℕ), p1 - ci = n → ci ≤ p1 →
      slots p1 p2 L ci =
        List.range' ci (p1 - ci) ++ List.range' (p2 + 1) (L - (p2 + 1)) := by
  intro n
  induction n with
  | zero =>
    intro ci hn hle
    have hci : ci = p1 := by omega
    rw [hci, slots, dif_pos (by omega), if_pos (by omega),
      slots_gt p1 p2 L (L - (p2 + 1)) (p2 + 1) rfl (by omega),
      show p1 - p1 = 0 from by omega]
    rfl
  | succ n ih =>
    intro ci hn hle
    have hlt : ci < p1 := by omega
    rw [slots, dif_pos (by omega), if_neg (by omega), hn, List.range'_succ,
      ih (ci + 1) (by omega) (by omega), List.cons_append,
      show p1 - (ci + 1) = n from by omega]

/-- A valid layout is a permutation of the character list. -/
lemma isValid_perm (cs : CharacterSet) (l : List ℕ) (hv : cs.IsValid l = true) :
    l.Perm cs.chars := by
  obtain ⟨hlen, -, hmem, hnd⟩ := (isValid_iff_invariants cs l).mp hv
  exact (List.subperm_of_subset hnd (fun x hx => hmem x hx)).perm_of_length_le
    (by rw [hlen]; exact Nat.le_refl _)

/-- Validity is preserved under permutation of the layout. -/
lemma isValid_of_perm (cs : CharacterSet) (l l' : List ℕ)
    (hv : cs.IsValid l = true) (hp : l'.Perm l) : cs.IsValid l' = true := by
  obtain ⟨hlen, h0, hmem, hnd⟩ := (isValid_iff_invariants cs l).mp hv
  refine (isValid_iff_invariants cs l').mpr
    ⟨by rw [hp.length_eq, hlen], ?_, ?_, hp.nodup_iff.mpr hnd⟩
  · intro c hc; exact h0 c (hp.mem_iff.mp hc)
  · intro c hc; exact hmem c (hp.mem_iff.mp hc)

/-- Structure of the order-crossover child for valid same-set parents: the
window `parent1[point1..point2]` is copied in place, and the remaining
positions, in increasing order from 0, receive the characters of `parent2`
not in the window, in `parent2` order from index 0. -/
lemma orderCrossover_core (cs : CharacterSet) (l1 l2 : List ℕ) (p1 p2 : ℕ)
    (hv1 : cs.IsValid l1 = true) (hv2 : cs.IsValid l2 = true)
    (hple : p1 ≤ p2) (hp2 : p2 < l1.length) :
    orderCrossover l1 l2 p1 p2 =
      (l2.filter (fun c => decide (c ∉ windowChars l1 p1 p2))).take p1 ++
        (l1.drop p1).take (p2 + 1 - p1) ++
        (l2.filter (fun c => decide (c ∉ windowChars l1 p1 p2))).drop p1 := by
  obtain ⟨hlen1, h01, hmem1, hnd1⟩ := (isValid_iff_invariants cs l1).mp hv1
  obtain ⟨hlen2, h02, hmem2, hnd2⟩ := (isValid_iff_invariants cs l2).mp hv2
  have hperm1 : l1.Perm cs.chars := isValid_perm cs l1 hv1
  have hperm2 : l2.Perm cs.chars := isValid_perm cs l2 hv2
  have hL12 : l2.length = l1.length := by
    rw [hperm2.length_eq, ← hperm1.length_eq]
  have hWseg : windowChars l1 p1 p2 = (l1.drop p1).take (p2 + 1 - p1) := by
    rw [windowChars]
    exact range'_map_getD (p2 + 1 - p1) p1 l1 (by omega)
  have hWlen : (windowChars l1 p1 p2).length = p2 + 1 - p1 := by
    rw [hWseg, List.length_take, List.length_drop]
    omega
  have hWsub : (windowChars l1 p1 p2).Sublist l1 := by
    rw [hWseg]
    exact ((l1.drop p1).take_sublist _).trans (l1.drop_sublist p1)
  have hWnd : (windowChars l1 p1 p2).Nodup := hWsub.nodup hnd1
  have hWmem : ∀ x ∈ windowChars l1 p1 p2, x ∈ l2 := fun x hx =>
    hperm2.mem_iff.mpr (hperm1.mem_iff.mp (hWsub.subset hx))
  have hFin : (l2.filter (fun c => decide (c ∈ windowChars l1 p1 p2))).Perm
      (windowChars l1 p1 p2) := by
    refine (List.subperm_of_subset (hnd2.filter _) ?_).antisymm
      (List.subperm_of_subset hWnd ?_)
    · intro x hx
      exact of_decide_eq_true (List.mem_filter.mp hx).2
    · intro x hx
      exact List.mem_filter.mpr ⟨hWmem x hx, decide_eq_true hx⟩
  have hsplit : ((l2.filter (fun c => decide (c ∈ windowChars l1 p1 p2))) ++
      (l2.filter (fun c => decide (c ∉ windowChars l1 p1 p2)))).Perm l2 := by
    have h := List.filter_append_perm (fun c => decide (c ∈ windowChars l1 p1 p2)) l2
    simpa [decide_not] using h
  have hFlen : (l2.filter (fun c => decide (c ∉ windowChars l1 p1 p2))).length +
      (p2 + 1 - p1) = l1.length := by
    have h1 := hsplit.length_eq
    have h2 := hFin.length_eq
    rw [List.length_append] at h1
    omega
  have hchild0 : windowCopy l1 p1 p2 (List.replicate l1.length 0) =
      (List.replicate l1.length 0).take p1 ++ windowChars l1 p1 p2 ++
        (List.replicate l1.length 0).drop (p2 + 1) := by
    rw [windowCopy_eq_writeSlots,
      writeSlots_range' p1 (List.replicate l1.length 0) (p2 + 1 - p1)
        (windowChars l1 p1 p2) hWlen (by rw [List.length_replicate]; omega),
      show p1 + (p2 + 1 - p1) = p2 + 1 from by omega]
  have hchild0len : ((List.replicate l1.length 0).take p1 ++ windowChars l1 p1 p2 ++
      (List.replicate l1.length 0).drop (p2 + 1)).length = l1.length := by
    simp only [List.length_append, List.length_take, List.length_drop,
      List.length_replicate, hWlen]
    omega
  -- the fill loop writes F into the free slots
  have hfill : (oxFill p1 p2 l1.length l2 0
      (windowCopy l1 p1 p2 (List.replicate l1.length 0))
      (windowChars l1 p1 p2)).1 =
      (l2.filter (fun c => decide (c ∉ windowChars l1 p1 p2))).take p1 ++
        (l1.drop p1).take (p2 + 1 - p1) ++
        (l2.filter (fun c => decide (c ∉ windowChars l1 p1 p2))).drop p1 := by
    rw [oxFill_child_eq,
      slots_le p1 p2 l1.length hple hp2 p1 0 (by omega) (by omega),
      newChars_eq_filter l2 (windowChars l1 p1 p2) hnd2]
    rw [show p1 - 0 = p1 from by omega]
    rw [writeSlots_append]
    rw [List.length_range']
    have htake_len : ((l2.filter (fun c => decide (c ∉ windowChars l1 p1 p2))).take p1).length = p1 := by
      rw [List.length_take]
      omega
    rw [hchild0]
    rw [writeSlots_range' 0 _ p1 _ htake_len (by rw [hchild0len]; omega)]
    rw [List.take_zero, List.nil_append, Nat.zero_add]
    have hTlen : ((List.replicate l1.length 0).take p1).length = p1 := by
      rw [List.length_take, List.length_replicate]
      omega
    have hdropT : List.drop p1 (List.take p1 (List.replicate l1.length 0)) =
        ([] : List ℕ) :=
      List.drop_eq_nil_of_le (le_of_eq hTlen)
    have hdrop_child0 : List.drop p1 (List.take p1 (List.replicate l1.length 0) ++
        windowChars l1 p1 p2 ++ List.drop (p2 + 1) (List.replicate l1.length 0)) =
        windowChars l1 p1 p2 ++ List.drop (p2 + 1) (List.replicate l1.length 0) := by
      rw [List.append_assoc, List.drop_append_eq_append_drop, hdropT, hTlen,
        Nat.sub_self, List.drop_zero, List.nil_append]
    rw [hdrop_child0]
    have hmidlen : (List.take p1 (List.filter (fun c => decide (c ∉ windowChars l1 p1 p2)) l2) ++
        (windowChars l1 p1 p2 ++ List.drop (p2 + 1) (List.replicate l1.length 0))).length
        = l1.length := by
      simp only [List.length_append, List.length_take, List.length_drop,
        List.length_replicate, hWlen]
      omega
    rw [writeSlots_range' (p2 + 1) _ (l1.length - (p2 + 1)) _
      (by rw [List.length_drop]; omega) (by rw [hmidlen]; omega)]
    have hdropnil : List.drop (p2 + 1 + (l1.length - (p2 + 1)))
        (List.take p1 (List.filter (fun c => decide (c ∉ windowChars l1 p1 p2)) l2) ++
          (windowChars l1 p1 p2 ++ List.drop (p2 + 1) (List.replicate l1.length 0))) =
        ([] : List ℕ) := by
      apply List.drop_eq_nil_of_le
      rw [hmidlen]
      omega
    rw [hdropnil, List.append_nil]
    have htake1 : List.take (p2 + 1)
        (List.take p1 (List.filter (fun c => decide (c ∉ windowChars l1 p1 p2)) l2)) =
        List.take p1 (List.filter (fun c => decide (c ∉ windowChars l1 p1 p2)) l2) := by
      rw [List.take_take, min_eq_right (by omega)]
    have htakeW : List.take (p2 + 1 - p1) (windowChars l1 p1 p2) =
        windowChars l1 p1 p2 :=
      List.take_of_length_le (le_of_eq hWlen)
    have htakeD : List.take (p2 + 1 - p1 - (windowChars l1 p1 p2).length)
        (List.drop (p2 + 1) (List.replicate l1.length 0)) = ([] : List ℕ) := by
      rw [hWlen, Nat.sub_self, List.take_zero]
    have htake231 : List.take (p2 + 1)
        (List.take p1 (List.filter (fun c => decide (c ∉ windowChars l1 p1 p2)) l2) ++
          (windowChars l1 p1 p2 ++ List.drop (p2 + 1) (List.replicate l1.length 0))) =
        List.take p1 (List.filter (fun c => decide (c ∉ windowChars l1 p1 p2)) l2) ++
          windowChars l1 p1 p2 := by
      rw [List.take_append_eq_append_take, htake_len, htake1,
        List.take_append_eq_append_take, htakeW, htakeD, List.append_nil]
    rw [htake231, hWseg, List.append_assoc]
  -- assemble, discharging the wrap-around loop
  rw [orderCrossover]
  simp only [min_eq_left hple, max_eq_right hple, min_eq_right hple, min_self,
    max_eq_left hple, max_self]
  by_cases hci : (oxFill p1 p2 l1.length l2 0
      (windowCopy l1 p1 p2 (List.replicate l1.length 0))
      (windowChars l1 p1 p2)).2.1 < p1
  · rw [if_pos hci]
    rw [oxWrap_id p1 l2 _ _ _ ?hused]
    · exact hfill
    case hused =>
      intro x hx
      exact oxFill_used_complete p1 p2 l1.length l2 0 _ _ (by omega) x (Or.inr hx)
  · rw [if_neg hci]
    exact hfill

/-- The copied window together with the not-in-window characters of a valid
second parent is a permutation of that parent. -/
lemma window_filter_perm (cs : CharacterSet) (l1 l2 : List ℕ) (p1 p2 : ℕ)
    (hv1 : cs.IsValid l1 = true) (hv2 : cs.IsValid l2 = true)
    (hple : p1 ≤ p2) (hp2 : p2 < l1.length) :
    (windowChars l1 p1 p2 ++
      l2.filter (fun c => decide (c ∉ windowChars l1 p1 p2))).Perm l2 := by
  obtain ⟨-, -, -, hnd1⟩ := (isValid_iff_invariants cs l1).mp hv1
  obtain ⟨-, -, -, hnd2⟩ := (isValid_iff_invariants cs l2).mp hv2
  have hperm1 : l1.Perm cs.chars := isValid_perm cs l1 hv1
  have hperm2 : l2.Perm cs.chars := isValid_perm cs l2 hv2
  have hWseg : windowChars l1 p1 p2 = (l1.drop p1).take (p2 + 1 - p1) := by
    rw [windowChars]
    exact range'_map_getD (p2 + 1 - p1) p1 l1 (by omega)
  have hWsub : (windowChars l1 p1 p2).Sublist l1 := by
    rw [hWseg]
    exact ((l1.drop p1).take_sublist _).trans (l1.drop_sublist p1)
  have hWnd : (windowChars l1 p1 p2).Nodup := hWsub.nodup hnd1
  have hWmem : ∀ x ∈ windowChars l1 p1 p2, x ∈ l2 := fun x hx =>
    hperm2.mem_iff.mpr (hperm1.mem_iff.mp (hWsub.subset hx))
  have hFin : (l2.filter (fun c => decide (c ∈ windowChars l1 p1 p2))).Perm
      (windowChars l1 p1 p2) := by
    refine (List.subperm_of_subset (hnd2.filter _) ?_).antisymm
      (List.subperm_of_subset hWnd ?_)
    · intro x hx
      exact of_decide_eq_true (List.mem_filter.mp hx).2
    · intro x hx
      exact List.mem_filter.mpr ⟨hWmem x hx, decide_eq_true hx⟩
  have hsplit : ((l2.filter (fun c => decide (c ∈ windowChars l1 p1 p2))) ++
      (l2.filter (fun c => decide (c ∉ windowChars l1 p1 p2)))).Perm l2 := by
    have h := List.filter_append_perm (fun c => decide (c ∈ windowChars l1 p1 p2)) l2
    simpa [decide_not] using h
  exact (hFin.symm.append_right _).trans hsplit

/-- C3 as amended.  For valid same-set parents and any two cut-point draws
below the length, the order-crossover child holds `parent1`'s characters on
the window `[point1, point2]`, and the remaining positions, scanned left to
right from position 0 (skipping the window), hold the characters of
`parent2` not in the window, taken in `parent2` order from index 0 — not
starting at `(point2+1) mod L` as the specification describes; the
wrap-around step never fires. -/
theorem orderCrossover_structure (cs : CharacterSet) (l1 l2 : List ℕ)
    (q1 q2 : ℕ) (hv1 : cs.IsValid l1 = true) (hv2 : cs.IsValid l2 = true)
    (hq1 : q1 < l1.length) (hq2 : q2 < l1.length) :
    orderCrossover l1 l2 q1 q2 =
      (l2.filter (fun c => decide (c ∉ windowChars l1 (min q1 q2) (max q1 q2)))).take (min q1 q2) ++
        (l1.drop (min q1 q2)).take (max q1 q2 + 1 - min q1 q2) ++
        (l2.filter (fun c => decide (c ∉ windowChars l1 (min q1 q2) (max q1 q2)))).drop (min q1 q2) := by
  have heq : orderCrossover l1 l2 q1 q2 =
      orderCrossover l1 l2 (min q1 q2) (max q1 q2) := by
    rw [orderCrossover, orderCrossover, min_eq_left (min_le_max),
      max_eq_right (min_le_max)]
  rw [heq]
  exact orderCrossover_core cs l1 l2 (min q1 q2) (max q1 q2) hv1 hv2
    min_le_max (max_lt hq1 hq2)

/-- Witness for the amended C3 at a concrete crossover. -/
theorem orderCrossover_structure_witness :
    orderCrossover [1, 2, 3] [2, 3, 1] 0 1 =
      ([2, 3, 1].filter (fun c => decide (c ∉ windowChars [1, 2, 3] 0 1))).take 0 ++
        ([1, 2, 3].drop 0).take 2 ++
        ([2, 3, 1].filter (fun c => decide (c ∉ windowChars [1, 2, 3] 0 1))).drop 0 :=
  orderCrossover_structure ⟨[1, 2, 3]⟩ [1, 2, 3] [2, 3, 1] 0 1
    (by decide) (by decide) (by decide) (by decide)

/-- The reference order crossover exactly as the specification words it:
copy `parent1[p1..p2]`; then, starting at position `(p2+1) mod L`, traverse
`parent2` in order from index `(p2+1) mod L` with wrap-around, placing each
character not in the copied window at the next free position, also
wrapping.  This definition follows the specification text and exists only to
be compared with the source-derived `orderCrossover`. -/
def specOrderCrossover (l1 l2 : List ℕ) (p1 p2 : ℕ) : List ℕ :=
  let L := l1.length
  let start := (p2 + 1) % L
  let freePos := ((List.range L).map (fun i => (start + i) % L)).filter
    (fun j => decide (¬ (p1 ≤ j ∧ j ≤ p2)))
  let cs2 := (l2.drop start ++ l2.take start).filter
    (fun c => decide (c ∉ windowChars l1 p1 p2))
  writeSlots (windowCopy l1 p1 p2 (List.replicate L 0)) freePos cs2

/-- C3 counterexample.  For the valid parents `[1,2,3]` and `[2,3,1]` over
the three-character set and cut points `p1 = p2 = 0`, the source fills from
index 0 and produces `[1,2,3]`, while the specification's wrap-from-
`(p2+1) mod L` order produces `[1,3,2]`. -/
theorem orderCrossover_spec_counterexample :
    CharacterSet.IsValid ⟨[1, 2, 3]⟩ [1, 2, 3] = true ∧
    CharacterSet.IsValid ⟨[1, 2, 3]⟩ [2, 3, 1] = true ∧
    orderCrossover [1, 2, 3] [2, 3, 1] 0 0 = [1, 2, 3] ∧
    specOrderCrossover [1, 2, 3] [2, 3, 1] 0 0 = [1, 3, 2] ∧
    orderCrossover [1, 2, 3] [2, 3, 1] 0 0 ≠
      specOrderCrossover [1, 2, 3] [2, 3, 1] 0 0 := by
  refine ⟨by decide, by decide, by decide, by decide, by decide⟩

/-- C2.  The three variation operators preserve permutation validity: order
crossover of two valid same-set parents, swap mutation of a valid individual
(for in-range drawn positions), and repair of a valid layout (which returns
it unchanged) all yield layouts accepted by `charset.IsValid`. -/
theorem variation_preserves_validity (cs : CharacterSet) :
    (∀ (l1 l2 : List ℕ) (q1 q2 : ℕ), cs.IsValid l1 = true → cs.IsValid l2 = true →
      q1 < l1.length → q2 < l1.length →
      cs.IsValid (orderCrossover l1 l2 q1 q2) = true) ∧
    (∀ (m : Mutator) (ind : Individual) (r : ℚ) (p1 p2 : ℕ),
      cs.IsValid ind.layout = true →
      p1 < ind.layout.length → p2 < ind.layout.length →
      cs.IsValid (m.Apply ind r p1 p2).layout = true) ∧
    (∀ layout : List ℕ, cs.IsValid layout = true →
      ValidateChild cs layout = layout ∧
      cs.IsValid (ValidateChild cs layout) = true) := by
  refine ⟨?_, ?_, ?_⟩
  · intro l1 l2 q1 q2 hv1 hv2 hq1 hq2
    rw [orderCrossover_structure cs l1 l2 q1 q2 hv1 hv2 hq1 hq2]
    have hWseg : windowChars l1 (min q1 q2) (max q1 q2) =
        (l1.drop (min q1 q2)).take (max q1 q2 + 1 - min q1 q2) := by
      rw [windowChars]
      exact range'_map_getD _ _ l1 (by have := max_lt hq1 hq2; omega)
    rw [← hWseg]
    refine isValid_of_perm cs l2 _ hv2 ?_
    have h1 : ((l2.filter (fun c => decide (c ∉ windowChars l1 (min q1 q2) (max q1 q2)))).take (min q1 q2) ++
        windowChars l1 (min q1 q2) (max q1 q2) ++
        (l2.filter (fun c => decide (c ∉ windowChars l1 (min q1 q2) (max q1 q2)))).drop (min q1 q2)).Perm
        (windowChars l1 (min q1 q2) (max q1 q2) ++
          ((l2.filter (fun c => decide (c ∉ windowChars l1 (min q1 q2) (max q1 q2)))).take (min q1 q2) ++
          (l2.filter (fun c => decide (c ∉ windowChars l1 (min q1 q2) (max q1 q2)))).drop (min q1 q2))) := by
      refine List.Perm.trans (List.Perm.append_right _ (List.perm_append_comm)) ?_
      rw [List.append_assoc]
    refine h1.trans ?_
    rw [List.take_append_drop]
    exact window_filter_perm cs l1 l2 (min q1 q2) (max q1 q2) hv1 hv2
      min_le_max (max_lt hq1 hq2)
  · intro m ind r p1 p2 hv hp1 hp2
    rw [Mutator.Apply]
    by_cases hr : r > m.rate
    · rw [if_pos hr]
      exact hv
    · rw [if_neg hr]
      exact isValid_of_perm cs ind.layout _ hv
        (swapMutation_perm ind.layout p1 p2 hp1 hp2)
  · intro layout hv
    constructor
    · rw [ValidateChild, if_pos hv]
    · rw [ValidateChild, if_pos hv]
      exact hv

/-- Witness for C2: concrete crossover, mutation and repair calls on the
three-character set all return valid layouts. -/
theorem variation_preserves_validity_witness :
    CharacterSet.IsValid ⟨[1, 2, 3]⟩ (orderCrossover [1, 2, 3] [2, 3, 1] 0 0) = true ∧
    CharacterSet.IsValid ⟨[1, 2, 3]⟩
      ((Mutator.Apply ⟨1⟩ ⟨[1, 2, 3], 0, 0⟩ 0 0 2).layout) = true ∧
    ValidateChild ⟨[1, 2, 3]⟩ [1, 2, 3] = [1, 2, 3] :=
  ⟨(variation_preserves_validity ⟨[1, 2, 3]⟩).1 [1, 2, 3] [2, 3, 1] 0 0
      (by decide) (by decide) (by decide) (by decide),
    (variation_preserves_validity ⟨[1, 2, 3]⟩).2.1 ⟨1⟩ ⟨[1, 2, 3], 0, 0⟩ 0 0 2
      (by decide) (by decide) (by decide),
    ((variation_preserves_validity ⟨[1, 2, 3]⟩).2.2 [1, 2, 3] (by decide)).1⟩

/-! ## Engine bookkeeping of `ParallelGA.Run` (part_013 source)

The populations produced by `Evolve` are abstracted by their per-individual
fitness values, the only data the best-ever update and the convergence check
read.  `scanBest` is the per-generation scan over the evolved population
(`bestInitialized` starts false, `bestFitness` starts −1.0), and `bestTraj`
is the sequence of best-ever values carried by the `bestIndividual` snapshots
handed to the per-generation callback.  `convLoop` is the convergence block:
counter and `lastBestFitness` bookkeeping, with the break once the counter
reaches `ConvergenceStops`.
-/

/-- The best-individual scan of one generation in `ParallelGA.Run`. -/
def scanBest (st : Bool × ℚ) (gen : List ℚ) : Bool × ℚ :=
  gen.foldl (fun s f =>
    if ¬ s.1 then (true, f)
    else if f > s.2 then (true, f)
    else s) st

/-- The per-generation best-ever fitness values of a run, one per evolved
generation. -/
def bestTraj (st : Bool × ℚ) : List (List ℚ) → List ℚ
  | [] => []
  | g :: gs => (scanBest st g).2 :: bestTraj (scanBest st g) gs

lemma scanBest_mono (gen : List ℚ) :
    ∀ st : Bool × ℚ, st.1 = true →
      (scanBest st gen).1 = true ∧ st.2 ≤ (scanBest st gen).2 := by
  induction gen with
  | nil => intro st hst; exact ⟨hst, le_refl _⟩
  | cons f rest ih =>
    intro st hst
    rw [scanBest, List.foldl_cons]
    rw [show (if ¬ st.1 then (true, f) else if f > st.2 then (true, f) else st) =
        (if f > st.2 then (true, f) else st) from by rw [if_neg (by simp [hst])]]
    by_cases hf : f > st.2
    · rw [if_pos hf]
      have h := ih (true, f) rfl
      exact ⟨h.1, le_of_lt (lt_of_lt_of_le hf h.2)⟩
    · rw [if_neg hf]
      exact ih st hst
  
lemma scanBest_init (gen : List ℚ) (hne : gen ≠ []) (st : Bool × ℚ) :
    (scanBest st gen).1 = true := by
  match gen, hne with
  | f :: rest, _ =>
    rw [scanBest, List.foldl_cons]
    have hstep : (if ¬ st.1 then (true, f)
        else if f > st.2 then (true, f) else st).1 = true := by
      by_cases hst : st.1 = true
      · rw [if_neg (by simp [hst])]
        by_cases hf : f > st.2
        · rw [if_pos hf]
        · rw [if_neg hf]
          exact hst
      · rw [if_pos (by simpa using hst)]
    exact (scanBest_mono rest _ hstep).1

lemma bestTraj_chain (gens : List (List ℚ)) :
    ∀ st : Bool × ℚ, st.1 = true →
      List.Chain' (fun a b => a ≤ b) (st.2 :: bestTraj st gens) := by
  induction gens with
  | nil => intro st _; simp [bestTraj]
  | cons g gs ih =>
    intro st hst
    rw [bestTraj]
    have h := scanBest_mono g st hst
    exact List.Chain'.cons h.2 (ih (scanBest st g) h.1)

/-- C7.  For every run whose generations are nonempty populations, the
sequence of best-ever fitness values handed to the per-generation callback is
non-decreasing. -/
theorem bestTraj_monotone (gens : List (List ℚ))
    (hne : ∀ g ∈ gens, g ≠ []) :
    List.Chain' (fun a b => a ≤ b) (bestTraj (false, -1) gens) := by
  match gens, hne with
  | [], _ => simp [bestTraj]
  | g :: gs, hne =>
    rw [bestTraj]
    have hinit : (scanBest (false, -1) g).1 = true :=
      scanBest_init g (hne g (List.mem_cons_self g gs)) (false, -1)
    exact bestTraj_chain gs (scanBest (false, -1) g) hinit

/-- Witness for C7: a concrete three-generation run has a non-decreasing
trajectory. -/
theorem bestTraj_monotone_witness :
    List.Chain' (fun a b => a ≤ b)
      (bestTraj (false, -1) [[1/2, 1/4], [1/3], [3/4, 1/5]]) :=
  bestTraj_monotone [[1/2, 1/4], [1/3], [3/4, 1/5]] (by decide)

/-- The convergence block of the generation loop, run over the successive
best-ever values `b`: guarded by `ConvergenceStops > 0`, skipped in the first
generation (`lastBestFitness` starts at −1.0 and the guard is
`lastBestFitness ≥ 0`), incrementing the counter when the change is within
tolerance and resetting it otherwise, breaking when the counter reaches
`ConvergenceStops`.  Returns the counter value of each executed generation
and the index of the generation that broke, if any. -/
def convLoop (K : ℕ) (tol : ℚ) : List ℚ → ℚ → ℕ → ℕ → (List ℕ × Option ℕ)
  | [], _, _, _ => ([], none)
  | b :: rest, lastBest, count, g =>
    if 0 < K then
      if 0 ≤ lastBest then
        if |b - lastBest| ≤ tol then
          if K ≤ count + 1 then ([count + 1], some g)
          else
            let r := convLoop K tol rest b (count + 1) (g + 1)
            ((count + 1) :: r.1, r.2)
        else
          let r := convLoop K tol rest b 0 (g + 1)
          (0 :: r.1, r.2)
      else
        let r := convLoop K tol rest b count (g + 1)
        (count :: r.1, r.2)
    else
      let r := convLoop K tol rest lastBest count (g + 1)
      (count :: r.1, r.2)

/-- The counter recurrence exactly as the claim states it: increment when the
best-ever change from the previous generation is within tolerance, reset to 0
otherwise. -/
def specConvCounts (tol : ℚ) : List ℚ → ℚ → ℕ → List ℕ
  | [], _, _ => []
  | b :: rest, prev, c =>
    if |b - prev| ≤ tol then (c + 1) :: specConvCounts tol rest b (c + 1)
    else 0 :: specConvCounts tol rest b 0

/-- Truncation of a counter sequence at the first generation whose counter
reaches `K`: the generations actually executed and the break index. -/
def truncAtK (K : ℕ) : List ℕ → ℕ → (List ℕ × Option ℕ)
  | [], _ => ([], none)
  | c :: cs, g =>
    if K ≤ c then ([c], some g)
    else
      let r := truncAtK K cs (g + 1)
      (c :: r.1, r.2)

lemma convLoop_eq_spec (K : ℕ) (tol : ℚ) (hK : 0 < K) :
    ∀ (rest : List ℚ) (prev : ℚ) (count g : ℕ), 0 ≤ prev →
      (∀ x ∈ rest, (0 : ℚ) ≤ x) →
      convLoop K tol rest prev count g =
        truncAtK K (specConvCounts tol rest prev count) g := by
  intro rest
  induction rest with
  | nil => intro prev count g _ _; rw [convLoop, specConvCounts, truncAtK]
  | cons b rest' ih =>
    intro prev count g hprev hall
    have hb : (0 : ℚ) ≤ b := hall b (List.mem_cons_self b rest')
    have hall' : ∀ x ∈ rest', (0 : ℚ) ≤ x := fun x hx =>
      hall x (List.mem_cons_of_mem _ hx)
    rw [convLoop, if_pos hK, if_pos hprev, specConvCounts]
    by_cases hch : |b - prev| ≤ tol
    · rw [if_pos hch, if_pos hch, truncAtK]
      by_cases hcnt : K ≤ count + 1
      · rw [if_pos hcnt, if_pos hcnt]
      · rw [if_neg hcnt, if_neg hcnt, ih b (count + 1) (g + 1) hb hall']
    · rw [if_neg hch, if_neg hch, truncAtK, if_neg (by omega),
        ih b 0 (g + 1) hb hall']

/-- C5.  With `ConvergenceStops = K > 0` and nonnegative per-generation
best-ever values, the engine's convergence bookkeeping behaves exactly as
claimed: the counter is never touched in generation 0 (no previous
generation), from generation 1 on it is incremented whenever the absolute
best-ever change is at most the tolerance and reset to 0 otherwise, and the
run breaks in the first generation whose counter reaches `K`. -/
theorem convergence_counter_spec (K : ℕ) (tol : ℚ) (b0 : ℚ) (rest : List ℚ)
    (hK : 0 < K) (hb0 : 0 ≤ b0) (hrest : ∀ x ∈ rest, (0 : ℚ) ≤ x) :
    convLoop K tol (b0 :: rest) (-1) 0 0 =
      truncAtK K (0 :: specConvCounts tol rest b0 0) 0 := by
  rw [convLoop, if_pos hK, if_neg (by norm_num), truncAtK, if_neg (by omega),
    convLoop_eq_spec K tol hK rest b0 0 1 hb0 hrest]

/-- Witness for C5: with `K = 2`, zero tolerance and the stagnating
trajectory `[1, 1, 1]`, the counters are 0, 1, 2 and the run breaks in
generation 2. -/
theorem convergence_counter_spec_witness :
    convLoop 2 0 [1, 1, 1] (-1) 0 0 =
      truncAtK 2 (0 :: specConvCounts 0 [1, 1] 1 0) 0 :=
  convergence_counter_spec 2 0 1 [1, 1] (by decide)
    (by with_unfolding_all decide) (by with_unfolding_all decide)

/-! ## Elite selection in `ParallelEvolver.Evolve` (part_013, part_009 sources)

`Evolve` obtains the individuals copied into the next generation from
`Selector.Select`, and the evolver is constructed with
`NewSelector(TournamentSelection, ...)`, so the elites are tournament
winners.  The adaptive elite count and tournament-size clamping apply when
diversity maintenance is on (`PopulationSize ≥ 200`), and with critically low
diversity part of the elites is replaced by freshly evaluated random
individuals.  Random draws are an explicit list threaded through.
-/

structure Config where
  PopulationSize : ℕ
  MaxGenerations : ℕ
  MutationRate : ℚ
  CrossoverRate : ℚ
  ElitismCount : ℕ
  TournamentSize : ℕ
  ParallelWorkers : ℕ
  deriving DecidableEq, Repr

/-- `rand.Intn n` on an explicit draw stream: head modulo `n`. -/
def randIntn (n : ℕ) : List ℕ → ℕ × List ℕ
  | [] => (0, [])
  | r :: rest => (r % n, rest)

/-- The inner loop of `tournamentSelect` drawing one tournament of the given
size, in draw order. -/
def drawTournament (pop : List Individual) : ℕ → List ℕ → (List Individual × List ℕ)
  | 0, rands => ([], rands)
  | j + 1, rands =>
    let d := randIntn pop.length rands
    let rest := drawTournament pop j d.2
    (pop.getD d.1 default :: rest.1, rest.2)

/-- The best-of-tournament fold: start from `tournament[0]`, replace on a
strictly greater fitness (ties keep the earlier draw). -/
def tournamentBest : List Individual → Individual → Individual
  | [], best => best
  | i :: rest, best =>
    tournamentBest rest (if i.fitness > best.fitness then i else best)

/-- `Selector.tournamentSelect`: `count` independent tournaments, cloning
each winner.  An empty tournament (`TournamentSize = 0`) indexes
`tournament[0]` out of range in the source, modelled as `none`. -/
def tournamentSelect (tSize : ℕ) (pop : List Individual) :
    ℕ → List ℕ → Option (List Individual × List ℕ)
  | 0, rands => some ([], rands)
  | count + 1, rands =>
    let d := drawTournament pop tSize rands
    match d.1 with
    | [] => none
    | t0 :: restT =>
      match tournamentSelect tSize pop count d.2 with
      | none => none
      | some (sel, r2) => some ((tournamentBest restT t0).Clone :: sel, r2)

/-- `calculateLayoutDistance`: fraction of positions that differ. -/
def calculateLayoutDistance (ind1 ind2 : Individual) : ℚ :=
  let differences := ((List.range ind1.layout.length).filter
    (fun i => decide (ind1.layout.getD i 0 ≠ ind2.layout.getD i 0))).length
  (differences : ℚ) / (ind1.layout.length : ℚ)

/-- `CalculatePopulationDiversity`: average pairwise layout distance. -/
def CalculatePopulationDiversity (pop : List Individual) : ℚ :=
  if pop.length < 2 then 0
  else
    let res := (List.range pop.length).foldl (fun (acc : ℚ × ℕ) i =>
      (List.range' (i + 1) (pop.length - (i + 1))).foldl (fun (acc2 : ℚ × ℕ) j =>
        (acc2.1 + calculateLayoutDistance (pop.getD i default) (pop.getD j default),
          acc2.2 + 1)) acc) (0, 0)
    if res.2 = 0 then 0 else res.1 / (res.2 : ℚ)

/-- The Fisher–Yates shuffle of `NewRandomIndividualWithCharset`, iterating
`i` from `len−1` down to 1 and swapping with a drawn `j ≤ i`. -/
def fisherYates (chars : List ℕ) (rands : List ℕ) : List ℕ × List ℕ :=
  ((List.range' 1 (chars.length - 1)).reverse).foldl
    (fun (acc : List ℕ × List ℕ) i =>
      let d := randIntn (i + 1) acc.2
      (swapMutation acc.1 i d.1, d.2)) (chars, rands)

/-- `NewRandomIndividual`: a shuffled alphabet individual. -/
def NewRandomIndividual (rands : List ℕ) : Individual × List ℕ :=
  let s := fisherYates AlphabetOnly.chars rands
  (⟨s.1, 0, 0⟩, s.2)

/-- The diversity-injection loop of `Evolve`: evaluated random individuals
appended to the kept elites. -/
def addRandomElites (fe : FitnessEvaluator) (data : KeyloggerData) :
    ℕ → List ℕ → (List Individual × List ℕ)
  | 0, rands => ([], rands)
  | n + 1, rands =>
    let r := NewRandomIndividual rands
    let ind := { r.1 with fitness := fe.Evaluate r.1.layout AlphabetOnly data }
    let rest := addRandomElites fe data n r.2
    (ind :: rest.1, rest.2)

/-- The adaptive elite count of `Evolve`: `ElitismCount` clamped into
`[max(1, P/100), max(3, P/33)]` when diversity maintenance is active
(`PopulationSize ≥ 200`), `ElitismCount` unchanged otherwise. -/
def adaptiveElitismCount (cfg : Config) : ℕ :=
  if 200 ≤ cfg.PopulationSize then
    max (max 1 (cfg.PopulationSize / 100))
      (min (max 3 (cfg.PopulationSize / 33)) cfg.ElitismCount)
  else cfg.ElitismCount

/-- The tournament size the evolver's selector is built with
(`NewParallelEvolver`): clamped into `[2, 4]` when diversity maintenance is
active, the configured size otherwise. -/
def adaptiveTournamentSize (cfg : Config) : ℕ :=
  if 200 ≤ cfg.PopulationSize then max 2 (min 4 cfg.TournamentSize)
  else cfg.TournamentSize

/-- The elite-selection step of `ParallelEvolver.Evolve`: adaptive elite
count and tournament size when diversity maintenance is active
(`PopulationSize ≥ 200`), tournament selection of the elites, and random
injection replacing a third of them when the diversity is critically low. -/
def evolveElites (fe : FitnessEvaluator) (data : KeyloggerData) (cfg : Config)
    (pop : List Individual) (rands : List ℕ) :
    Option (List Individual × List ℕ) :=
  let diversity :=
    if 200 ≤ cfg.PopulationSize then CalculatePopulationDiversity pop else 0
  match tournamentSelect (adaptiveTournamentSize cfg) pop
      (adaptiveElitismCount cfg) rands with
  | none => none
  | some (elites, r1) =>
    if 200 ≤ cfg.PopulationSize ∧ diversity < 1/10 then
      let eliteCount := max 1 (adaptiveElitismCount cfg * 2 / 3)
      let kept := elites.take eliteCount
      let injected := addRandomElites fe data (adaptiveElitismCount cfg - eliteCount) r1
      some (kept ++ injected.1, injected.2)
    else some (elites, r1)

/-- Stable descending sort by fitness (insertion sort; among equal fitness
the earlier individual stays first), as the claim's "top-K by fitness,
stable-sorted" prescribes.  This definition follows the claim's words and
exists only for comparison with the source-derived `evolveElites`. -/
def insertDesc (x : Individual) : List Individual → List Individual
  | [] => [x]
  | y :: ys => if y.fitness ≤ x.fitness then x :: y :: ys else y :: insertDesc x ys

/-- Stable sort by descending fitness (claim side). -/
def stableSortDesc : List Individual → List Individual
  | [] => []
  | x :: xs => insertDesc x (stableSortDesc xs)

/-- Top-K by fitness with a stable descending sort (claim side). -/
def stableTopK (pop : List Individual) (k : ℕ) : List Individual :=
  (stableSortDesc pop).take k

lemma Individual.Clone_eq (ind : Individual) : ind.Clone = ind := rfl

lemma drawTournament_spec (pop : List Individual) (hpop : pop ≠ []) :
    ∀ (j : ℕ) (rands : List ℕ),
      (drawTournament pop j rands).1.length = j ∧
      ∀ y ∈ (drawTournament pop j rands).1, y ∈ pop := by
  intro j
  induction j with
  | zero => intro rands; exact ⟨rfl, by intro y hy; simp [drawTournament] at hy⟩
  | succ j ih =>
    intro rands
    have hlen : 0 < pop.length := List.length_pos.mpr hpop
    have hidx : (randIntn pop.length rands).1 < pop.length := by
      cases rands with
      | nil => exact hlen
      | cons r rest => exact Nat.mod_lt r hlen
    have hmem : pop.getD (randIntn pop.length rands).1 default ∈ pop := by
      rw [List.getD_eq_getElem pop default hidx]
      exact List.getElem_mem hidx
    rw [drawTournament]
    constructor
    · rw [List.length_cons, (ih (randIntn pop.length rands).2).1]
    · intro y hy
      rcases List.mem_cons.mp hy with h | h
      · exact h ▸ hmem
      · exact (ih (randIntn pop.length rands).2).2 y h

lemma tournamentBest_spec :
    ∀ (l : List Individual) (b : Individual),
      (tournamentBest l b = b ∨ tournamentBest l b ∈ l) ∧
      b.fitness ≤ (tournamentBest l b).fitness ∧
      ∀ y ∈ l, y.fitness ≤ (tournamentBest l b).fitness := by
  intro l
  induction l with
  | nil =>
    intro b
    exact ⟨Or.inl rfl, le_refl _, by intro y hy; simp at hy⟩
  | cons i rest ih =>
    intro b
    rw [tournamentBest]
    by_cases hc : i.fitness > b.fitness
    · rw [if_pos hc]
      obtain ⟨hmem, hb, hall⟩ := ih i
      refine ⟨?_, le_trans (le_of_lt hc) hb, ?_⟩
      · rcases hmem with h | h
        · exact Or.inr (by rw [h]; exact List.mem_cons_self i rest)
        · exact Or.inr (List.mem_cons_of_mem _ h)
      · intro y hy
        rcases List.mem_cons.mp hy with h | h
        · subst h
          exact hb
        · exact hall y h
    · rw [if_neg hc]
      obtain ⟨hmem, hb, hall⟩ := ih b
      refine ⟨?_, hb, ?_⟩
      · rcases hmem with h | h
        · exact Or.inl h
        · exact Or.inr (List.mem_cons_of_mem _ h)
      · intro y hy
        rcases List.mem_cons.mp hy with h | h
        · subst h
          exact le_trans (le_of_not_lt hc) hb
        · exact hall y h

lemma tournamentSelect_spec (tSize : ℕ) (pop : List Individual)
    (hT : 0 < tSize) (hpop : pop ≠ []) :
    ∀ (count : ℕ) (rands : List ℕ),
      ∃ sel r2, tournamentSelect tSize pop count rands = some (sel, r2) ∧
        sel.length = count ∧
        ∀ x ∈ sel, x ∈ pop ∧ ∃ tour : List Individual, tour ≠ [] ∧
          (∀ y ∈ tour, y ∈ pop) ∧ x ∈ tour ∧
          ∀ y ∈ tour, y.fitness ≤ x.fitness := by
  intro count
  induction count with
  | zero =>
    intro rands
    exact ⟨[], rands, rfl, rfl, by intro x hx; simp at hx⟩
  | succ count ih =>
    intro rands
    obtain ⟨hdlen, hdmem⟩ := drawTournament_spec pop hpop tSize rands
    obtain ⟨sel, r2, hsel, hlen, hprops⟩ := ih (drawTournament pop tSize rands).2
    match hdt : (drawTournament pop tSize rands).1 with
    | [] =>
      exfalso
      rw [hdt] at hdlen
      simp at hdlen
      omega
    | t0 :: restT =>
      refine ⟨(tournamentBest restT t0).Clone :: sel, r2, ?_, ?_, ?_⟩
      · rw [tournamentSelect, hdt, hsel]
      · rw [List.length_cons, hlen]
      · intro x hx
        rcases List.mem_cons.mp hx with h | h
        · subst h
          rw [Individual.Clone_eq]
          obtain ⟨hbmem, hb0, ball⟩ := tournamentBest_spec restT t0
          have hxtour : tournamentBest restT t0 ∈ t0 :: restT := by
            rcases hbmem with h | h
            · rw [h]
              exact List.mem_cons_self t0 restT
            · exact List.mem_cons_of_mem _ h
          have htourpop : ∀ y ∈ t0 :: restT, y ∈ pop := by
            intro y hy
            exact hdmem y (hdt ▸ hy)
          refine ⟨htourpop _ hxtour, t0 :: restT, by simp, htourpop, hxtour, ?_⟩
          intro y hy
          rcases List.mem_cons.mp hy with h | h
          · subst h
            exact hb0
          · exact ball y h
        · exact hprops x h

/-- C6 as amended.  For a positive configured tournament size and a nonempty
population, the individuals copied unchanged into the next generation come
from tournament selection, not a stable sort: the engine draws
`adaptiveElitismCount` tournament winners (the configured `ElitismCount`,
clamped into the adaptive band when `PopulationSize ≥ 200`, with the
tournament size then clamped into `[2, 4]`), each a population member
holding the maximum fitness of its drawn tournament (ties to the earlier
draw); when diversity maintenance is active and the population diversity is
below 0.1, only the first `max(1, ⌊2K/3⌋)` winners are kept and the
remaining elite slots are filled with freshly randomized, individually
evaluated individuals. -/
theorem evolveElites_are_tournament_winners (fe : FitnessEvaluator)
    (data : KeyloggerData) (cfg : Config) (pop : List Individual)
    (rands : List ℕ) (hT : 0 < cfg.TournamentSize) (hpop : pop ≠ []) :
    ∃ winners r1,
      tournamentSelect (adaptiveTournamentSize cfg) pop
        (adaptiveElitismCount cfg) rands = some (winners, r1) ∧
      winners.length = adaptiveElitismCount cfg ∧
      (∀ x ∈ winners, x ∈ pop ∧ ∃ tour : List Individual, tour ≠ [] ∧
        (∀ y ∈ tour, y ∈ pop) ∧ x ∈ tour ∧
        ∀ y ∈ tour, y.fitness ≤ x.fitness) ∧
      evolveElites fe data cfg pop rands =
        (if 200 ≤ cfg.PopulationSize ∧ CalculatePopulationDiversity pop < 1/10 then
          some (winners.take (max 1 (adaptiveElitismCount cfg * 2 / 3)) ++
              (addRandomElites fe data
                (adaptiveElitismCount cfg -
                  max 1 (adaptiveElitismCount cfg * 2 / 3)) r1).1,
            (addRandomElites fe data
              (adaptiveElitismCount cfg -
                max 1 (adaptiveElitismCount cfg * 2 / 3)) r1).2)
        else some (winners, r1)) := by
  have htpos : 0 < adaptiveTournamentSize cfg := by
    unfold adaptiveTournamentSize
    split_ifs
    · exact lt_of_lt_of_le (by norm_num) (le_max_left 2 (min 4 cfg.TournamentSize))
    · exact hT
  obtain ⟨winners, r1, hsel, hlen, hprops⟩ :=
    tournamentSelect_spec (adaptiveTournamentSize cfg) pop htpos hpop
      (adaptiveElitismCount cfg) rands
  refine ⟨winners, r1, hsel, hlen, hprops, ?_⟩
  rw [evolveElites, hsel]
  show (if 200 ≤ cfg.PopulationSize ∧
      (if 200 ≤ cfg.PopulationSize then CalculatePopulationDiversity pop else 0)
        < 1/10 then
      some (winners.take (max 1 (adaptiveElitismCount cfg * 2 / 3)) ++
          (addRandomElites fe data
            (adaptiveElitismCount cfg -
              max 1 (adaptiveElitismCount cfg * 2 / 3)) r1).1,
        (addRandomElites fe data
          (adaptiveElitismCount cfg -
            max 1 (adaptiveElitismCount cfg * 2 / 3)) r1).2)
    else some (winners, r1)) = _
  by_cases hP : 200 ≤ cfg.PopulationSize
  · rw [if_pos hP]
  · rw [if_neg hP,
      if_neg (show ¬ (200 ≤ cfg.PopulationSize ∧ (0 : ℚ) < 1/10) from
        fun h => hP h.1),
      if_neg (show ¬ (200 ≤ cfg.PopulationSize ∧
        CalculatePopulationDiversity pop < 1/10) from fun h => hP h.1)]

/-- Witness for the amended C6 at a concrete two-individual population, in
the adaptive regime (`PopulationSize = 200`, elite count clamped to 5,
tournament size clamped to 3, diversity 1 so no random injection). -/
theorem evolveElites_are_tournament_winners_witness :
    ∃ winners r1,
      tournamentSelect (adaptiveTournamentSize ⟨200, 0, 0, 0, 5, 3, 0⟩)
        [⟨[1, 2], 1, 0⟩, ⟨[2, 1], 2, 0⟩]
        (adaptiveElitismCount ⟨200, 0, 0, 0, 5, 3, 0⟩) [0] = some (winners, r1) ∧
      winners.length = adaptiveElitismCount ⟨200, 0, 0, 0, 5, 3, 0⟩ ∧
      (∀ x ∈ winners, x ∈ [(⟨[1, 2], 1, 0⟩ : Individual), ⟨[2, 1], 2, 0⟩] ∧
        ∃ tour : List Individual, tour ≠ [] ∧
          (∀ y ∈ tour, y ∈ [(⟨[1, 2], 1, 0⟩ : Individual), ⟨[2, 1], 2, 0⟩]) ∧
          x ∈ tour ∧ ∀ y ∈ tour, y.fitness ≤ x.fitness) ∧
      evolveElites fe0 emptyData ⟨200, 0, 0, 0, 5, 3, 0⟩
          [⟨[1, 2], 1, 0⟩, ⟨[2, 1], 2, 0⟩] [0] =
        (if 200 ≤ (⟨200, 0, 0, 0, 5, 3, 0⟩ : Config).PopulationSize ∧
            CalculatePopulationDiversity
              [⟨[1, 2], 1, 0⟩, ⟨[2, 1], 2, 0⟩] < 1/10 then
          some (winners.take (max 1 (adaptiveElitismCount ⟨200, 0, 0, 0, 5, 3, 0⟩ * 2 / 3)) ++
              (addRandomElites fe0 emptyData
                (adaptiveElitismCount ⟨200, 0, 0, 0, 5, 3, 0⟩ -
                  max 1 (adaptiveElitismCount ⟨200, 0, 0, 0, 5, 3, 0⟩ * 2 / 3)) r1).1,
            (addRandomElites fe0 emptyData
              (adaptiveElitismCount ⟨200, 0, 0, 0, 5, 3, 0⟩ -
                max 1 (adaptiveElitismCount ⟨200, 0, 0, 0, 5, 3, 0⟩ * 2 / 3)) r1).2)
        else some (winners, r1)) :=
  evolveElites_are_tournament_winners fe0 emptyData ⟨200, 0, 0, 0, 5, 3, 0⟩
    [⟨[1, 2], 1, 0⟩, ⟨[2, 1], 2, 0⟩] [0] (by decide) (by decide)

/-- C6 counterexample.  With elite count 1 and tournament size 1, a draw
stream that picks index 0 selects the weaker individual (fitness 1) as the
elite, while the stable-sorted top-1 is the stronger one (fitness 2): the
elites are not the stable-sorted top-K. -/
theorem elites_not_stable_topK :
    evolveElites fe0 emptyData ⟨2, 0, 0, 0, 1, 1, 0⟩
      [⟨[1, 2], 1, 0⟩, ⟨[2, 1], 2, 0⟩] [0] = some ([⟨[1, 2], 1, 0⟩], []) ∧
    stableTopK [⟨[1, 2], 1, 0⟩, ⟨[2, 1], 2, 0⟩] 1 = [⟨[2, 1], 2, 0⟩] ∧
    evolveElites fe0 emptyData ⟨2, 0, 0, 0, 1, 1, 0⟩
      [⟨[1, 2], 1, 0⟩, ⟨[2, 1], 2, 0⟩] [0] ≠
      some (stableTopK [⟨[1, 2], 1, 0⟩, ⟨[2, 1], 2, 0⟩] 1, []) := by
  refine ⟨?_, ?_, ?_⟩
  · with_unfolding_all decide
  · with_unfolding_all decide
  · with_unfolding_all decide
